import Mathlib

/-!
# Write batches of bitcask-go (`batch.go`)

A shallow embedding of `batch.go`: the sequence-tagged key codec
(`logRecordKeyWithSeq`, `parseLogRecordKey`, on top of Go's
`encoding/binary` varints) and the `WriteBatch` operations `Put`, `Delete`
and `Commit`, followed by theorems about them.

Conventions of the embedding:

* a Go `[]byte` is a `List UInt8`; the nil slice and the empty slice are
  both `[]`;
* a Go `uint64` is a `Nat` below `2 ^ 64`, arithmetic on it is reduced
  modulo `2 ^ 64` where the Go code can wrap; a Go `int` is an `Int`;
* a Go function that can panic returns an `Option`, `none` being the panic;
* a Go `error` result is an `Option Error`, `none` being `nil`.
-/

namespace BitcaskGo

/-! ## Bytes and varints (`encoding/binary`) -/

/-- A Go byte slice. -/
abbrev Bytes := List UInt8

/-- The constant `binary.MaxVarintLen64`. -/
def MaxVarintLen64 : Nat := 10

/-- The function `binary.PutUvarint`, returning the bytes it writes to the
front of the buffer (their number is the `n` the Go function returns):

```go
i := 0
for x >= 0x80 { buf[i] = byte(x) | 0x80; x >>= 7; i++ }
buf[i] = byte(x)
return i + 1
```
-/
def PutUvarint (x : Nat) : Bytes :=
  if 0x80 ≤ x then
    (UInt8.ofNat x ||| 0x80) :: PutUvarint (x >>> 7)
  else
    [UInt8.ofNat x]
termination_by x
decreasing_by
  simp only [Nat.shiftRight_eq_div_pow]
  omega

/-- The loop of `binary.Uvarint` over the bytes not yet read, with the
accumulator `x`, the shift `s` and the index `i` of the next byte:

```go
for i, b := range buf {
    if i == MaxVarintLen64 { return 0, -(i + 1) }
    if b < 0x80 {
        if i == MaxVarintLen64-1 && b > 1 { return 0, -(i + 1) }
        return x | uint64(b)<<s, i + 1
    }
    x |= uint64(b&0x7f) << s
    s += 7
}
return 0, 0
```
-/
def uvarintLoop : Bytes → Nat → Nat → Nat → Nat × Int
  | [], _, _, _ => (0, 0)
  | b :: rest, x, s, i =>
    if i = MaxVarintLen64 then (0, -((i : Int) + 1))
    else if b < 0x80 then
      if i = MaxVarintLen64 - 1 ∧ b > 1 then (0, -((i : Int) + 1))
      else (x ||| (b.toNat <<< s) % 2 ^ 64, (i : Int) + 1)
    else uvarintLoop rest (x ||| ((b &&& 0x7f).toNat <<< s) % 2 ^ 64) (s + 7) (i + 1)

/-- The function `binary.Uvarint`: the decoded value and the number of bytes
read (`0` when the buffer is too small, negative on overflow). -/
def Uvarint (buf : Bytes) : Nat × Int := uvarintLoop buf 0 0 0

/-! ## Sequence-tagged keys -/

/-- The function `logRecordKeyWithSeq` of `batch.go`: the varint of `seqNo`
followed by `key`. -/
def logRecordKeyWithSeq (key : Bytes) (seqNo : Nat) : Bytes :=
  let seq := PutUvarint seqNo
  seq ++ key

/-- The function `parseLogRecordKey` of `batch.go`. The slice expression
`encKey[n:]` panics unless `0 ≤ n ≤ len(encKey)`; the panic is `none`. -/
def parseLogRecordKey (encKey : Bytes) : Option (Bytes × Nat) :=
  let (seqNo, n) := Uvarint encKey
  if 0 ≤ n ∧ n ≤ (encKey.length : Int) then
    some (encKey.drop n.toNat, seqNo)
  else
    none

/-! ## Records, positions, errors and the index (packages `data` and `index`) -/

/-- Modelled from the spec: the type `data.LogRecordType`, declared in package
`data` and not in `batch.go`. The spec gives a record the type
`enum{Normal, Deleted, TxnFinished}`; `batch.go` names the constants
`data.LogRecordNormal`, `data.LogRecordDeleted` and `data.LogRecordFinished`. -/
inductive LogRecordType where
  | LogRecordNormal
  | LogRecordDeleted
  | LogRecordFinished
  deriving DecidableEq, Repr

/-- Modelled from the spec: the zero value of `data.LogRecordType`, the type of
a record built without a `Type` field as `Put` does; the spec says `Put`
stores `{key, value, Normal}`. -/
def LogRecordType.zero : LogRecordType := LogRecordType.LogRecordNormal

/-- Modelled from the spec: the struct `data.LogRecord` with the fields
`Key`, `Value` and `Type` that `batch.go` uses (`Type` is `Typ` here, the
Go name being reserved). -/
structure LogRecord where
  Key : Bytes
  Value : Bytes
  Typ : LogRecordType
  deriving DecidableEq, Repr

/-- Modelled from the spec: the struct `data.LogRecordPos`, the position
reference, "file identifier + byte offset". A `*data.LogRecordPos` is an
`Option LogRecordPos`, `none` being the nil pointer. -/
structure LogRecordPos where
  Fid : Nat
  Offset : Nat
  deriving DecidableEq, Repr

/-- The errors `Commit`, `Put` and `Delete` return: the two package errors
`batch.go` names, and an error of the log store (a failed append or sync)
with the store's error code. -/
inductive Error where
  | ErrKeyIsEmpty
  | ErrExceedMaxBatchNum
  | store (code : Nat)
  deriving DecidableEq, Repr

/-- Modelled from the spec: the index behind `db.index`, a mapping from raw
key to position reference with `get`, `put` and `delete`; its
implementation is not in `batch.go`. -/
structure Index where
  lookup : Bytes → Option LogRecordPos

/-- Modelled from the spec: `index.Get(key)`, nil when the key is absent. -/
def Index.Get (idx : Index) (key : Bytes) : Option LogRecordPos := idx.lookup key

/-- Modelled from the spec: `index.Put(key, pos)`. -/
def Index.Put (idx : Index) (key : Bytes) (pos : Option LogRecordPos) : Index :=
  ⟨fun k => if k = key then pos else idx.lookup k⟩

/-- Modelled from the spec: `index.Delete(key)`. -/
def Index.Delete (idx : Index) (key : Bytes) : Index :=
  ⟨fun k => if k = key then none else idx.lookup k⟩

/-! ## Go maps keyed by `string(key)` -/

/-- A Go `map[string]V`, as the list of its entries. The operations below
keep at most one entry per key; the order of the list is not the order in
which a `range` loop visits the map (see `Env`). -/
structure GoMap (V : Type) where
  entries : List (Bytes × V)
  deriving DecidableEq, Repr

/-- The empty map `make(map[string]V)`. -/
def GoMap.empty {V : Type} : GoMap V := ⟨[]⟩

/-- The lookup `m[k]` with its `ok` flag: `none` when `k` has no entry. -/
def GoMap.get {V : Type} (m : GoMap V) (k : Bytes) : Option V :=
  (m.entries.find? (fun e => e.1 = k)).map Prod.snd

/-- The assignment `m[k] = v`. -/
def GoMap.set {V : Type} (m : GoMap V) (k : Bytes) (v : V) : GoMap V :=
  ⟨(k, v) :: m.entries.filter (fun e => e.1 ≠ k)⟩

/-- The statement `delete(m, k)`. -/
def GoMap.delete {V : Type} (m : GoMap V) (k : Bytes) : GoMap V :=
  ⟨m.entries.filter (fun e => e.1 ≠ k)⟩

/-- The length `len(m)`. -/
def GoMap.len {V : Type} (m : GoMap V) : Nat := m.entries.length

/-- The values of the map, which a loop `for _, v := range m` visits in an
order of the runtime's choosing. -/
def GoMap.values {V : Type} (m : GoMap V) : List V := m.entries.map Prod.snd

/-! ## The engine and the write batch -/

/-- The constant `nonTransactionSeqNo`. -/
def nonTransactionSeqNo : Nat := 0

/-- The variable `txnFixKey`, the bytes of `"txn-fix"`. -/
def txnFixKey : Bytes := [0x74, 0x78, 0x6e, 0x2d, 0x66, 0x69, 0x78]

/-- Modelled from the spec: the struct `WriteBatchOptions` with the two
fields `batch.go` reads; `MaxBatchNum` is compared with `len(...)` and so is
a Go `int`. -/
structure WriteBatchOptions where
  MaxBatchNum : Int
  SyncWrites : Bool
  deriving DecidableEq, Repr

/-- The struct `WriteBatch`, without its mutex and its pointer to the
engine: the engine is passed to every operation next to the batch. -/
structure WriteBatch where
  options : WriteBatchOptions
  pendingWrite : GoMap LogRecord
  deriving DecidableEq, Repr

/-- Modelled from the spec: the part of the engine `DB` that `batch.go`
touches: the sequence counter `seqNo`, the index, and the log, which is the
list, oldest first, of the records whose append succeeded. -/
structure DB where
  seqNo : Nat
  index : Index
  log : List LogRecord

/-- What the surroundings of one `Commit` call decide: the result of each
call of `db.appendLogRecord` (numbered from 0 within the call: a position
or the error code of a failure), whether `db.activeFile` is non-nil when
`Commit` tests it, the result of `db.activeFile.Sync()`, and the orders in
which the two `range` loops visit the pending map. -/
structure Env where
  appendResult : Nat → Except Nat LogRecordPos
  activeFile : Bool
  syncResult : Option Nat
  range1 : List LogRecord → List LogRecord
  range2 : List LogRecord → List LogRecord

/-- The two `range` orders of an environment are orders of the map's
entries: each visits every entry once. -/
def Env.Ranges (env : Env) : Prop :=
  ∀ l : List LogRecord, (env.range1 l).Perm l ∧ (env.range2 l).Perm l

/-- The method `db.NewWriteBatch`. -/
def NewWriteBatch (options : WriteBatchOptions) : WriteBatch :=
  { options := options, pendingWrite := GoMap.empty }

/-- Modelled from the spec: the method `db.appendLogRecord`, the log store's
`append(record) → (Position Reference, error)`. When the append succeeds the
record is at the end of the log and its position is returned; when it fails
the log is as before. -/
def DB.appendLogRecord (db : DB) (result : Except Nat LogRecordPos) (logRecord : LogRecord) :
    DB × Except Error LogRecordPos :=
  match result with
  | .ok pos => ({ db with log := db.log ++ [logRecord] }, .ok pos)
  | .error code => (db, .error (Error.store code))

/-- The method `WriteBatch.Put`. The record keeps the caller's `key` and
`value` slices, which `batch.go` does not copy (lines 37-41), while the map
key `string(key)` is a copy: the record holds the bytes the slices have at the
call, and what the caller writes to them afterwards is `callerWrite`. -/
def WriteBatch.Put (wb : WriteBatch) (db : DB) (key value : Bytes) :
    Option Error × WriteBatch × DB :=
  if key.length = 0 then
    (some Error.ErrKeyIsEmpty, wb, db)
  else
    let logRecord : LogRecord := { Key := key, Value := value, Typ := LogRecordType.zero }
    (none, { wb with pendingWrite := wb.pendingWrite.set key logRecord }, db)

/-- The method `WriteBatch.Delete`. The tombstone keeps the caller's `key`
slice, which `batch.go` does not copy (lines 61-65), while the map key
`string(key)` is a copy: what the caller writes to the slice afterwards is
`callerWrite`. -/
def WriteBatch.Delete (wb : WriteBatch) (db : DB) (key : Bytes) :
    Option Error × WriteBatch × DB :=
  if key.length = 0 then
    (some Error.ErrKeyIsEmpty, wb, db)
  else
    let logRecordPos := db.index.Get key
    if logRecordPos = none then
      if (wb.pendingWrite.get key).isSome then
        (none, { wb with pendingWrite := wb.pendingWrite.delete key }, db)
      else
        (none, wb, db)
    else
      let logRecord : LogRecord :=
        { Key := key, Value := [], Typ := LogRecordType.LogRecordDeleted }
      (none, { wb with pendingWrite := wb.pendingWrite.set key logRecord }, db)

/-- A write by the caller to the buffers it passed to `Put` or `Delete` for
the entry filed under `k`. The pending record shares those buffers
(`Key: key`, `Value: value` at lines 37-41 and 61-65 store the slices
uncopied), so its `Key` and `Value` now hold the bytes `key` and `value`; a
slice keeps its length, so only bytes change; the map key, a copy, and the
type are as before. A write that does not fit the lengths, or to a key that
is not pending, changes nothing. -/
def WriteBatch.callerWrite (wb : WriteBatch) (k key value : Bytes) : WriteBatch :=
  { wb with
    pendingWrite := ⟨wb.pendingWrite.entries.map (fun e =>
      if e.1 = k ∧ key.length = e.2.Key.length ∧ value.length = e.2.Value.length then
        (e.1, { Key := key, Value := value, Typ := e.2.Typ })
      else e)⟩ }

/-- The first loop of `Commit` (lines 85-95) over the records still to
visit, `n` being the number of appends made so far: every record is appended
under its sequence-tagged key and its position stored in `positions` under
the raw key; the first failing append ends the loop with its error. -/
def appendPending (env : Env) (seqNo : Nat) :
    List LogRecord → Nat → DB → GoMap LogRecordPos → DB × Except Error (GoMap LogRecordPos)
  | [], _, db, positions => (db, .ok positions)
  | record :: rest, n, db, positions =>
    match db.appendLogRecord (env.appendResult n)
        { Key := logRecordKeyWithSeq record.Key seqNo, Value := record.Value,
          Typ := record.Typ } with
    | (db1, .error err) => (db1, .error err)
    | (db1, .ok pos) => appendPending env seqNo rest (n + 1) db1 (positions.set record.Key pos)

/-- The second loop of `Commit` (lines 110-117) over the records still to
visit: a normal record puts its position in the index, a deleted record
deletes its key from the index. -/
def applyPending (positions : GoMap LogRecordPos) : List LogRecord → Index → Index
  | [], index => index
  | record :: rest, index =>
    let pos := positions.get record.Key
    if record.Typ = LogRecordType.LogRecordNormal then
      applyPending positions rest (index.Put record.Key pos)
    else if record.Typ = LogRecordType.LogRecordDeleted then
      applyPending positions rest (index.Delete record.Key)
    else
      applyPending positions rest index

/-- The method `WriteBatch.Commit`: the error returned, the batch and the
engine afterwards. -/
def WriteBatch.Commit (wb : WriteBatch) (db : DB) (env : Env) :
    Option Error × WriteBatch × DB :=
  if wb.pendingWrite.len = 0 then
    (none, wb, db)
  else if (wb.pendingWrite.len : Int) > wb.options.MaxBatchNum then
    (some Error.ErrExceedMaxBatchNum, wb, db)
  else
    let seqNo := (db.seqNo + 1) % 2 ^ 64
    let db0 : DB := { db with seqNo := seqNo }
    let visited := env.range1 wb.pendingWrite.values
    match appendPending env seqNo visited 0 db0 GoMap.empty with
    | (db1, .error err) => (some err, wb, db1)
    | (db1, .ok positions) =>
      match db1.appendLogRecord (env.appendResult visited.length)
          { Key := logRecordKeyWithSeq txnFixKey seqNo, Value := [],
            Typ := LogRecordType.LogRecordFinished } with
      | (db2, .error err) => (some err, wb, db2)
      | (db2, .ok _) =>
        match (if wb.options.SyncWrites && env.activeFile then env.syncResult else none) with
        | some code => (some (Error.store code), wb, db2)
        | none =>
          let index := applyPending positions (env.range2 wb.pendingWrite.values) db2.index
          (none, { wb with pendingWrite := GoMap.empty }, { db2 with index := index })

/-- The record the first loop of `Commit` appends for the pending record
`r`: the key tagged with the sequence number, value and type copied. -/
def LogRecord.withSeq (r : LogRecord) (seqNo : Nat) : LogRecord :=
  { Key := logRecordKeyWithSeq r.Key seqNo, Value := r.Value, Typ := r.Typ }

/-- The completion marker `Commit` appends after the pending records. -/
def finishedRecord (seqNo : Nat) : LogRecord :=
  { Key := logRecordKeyWithSeq txnFixKey seqNo, Value := [],
    Typ := LogRecordType.LogRecordFinished }

/-! ## Reading the log -/

/-- The sequence number a stored record carries: the one `parseLogRecordKey`
decodes from its key. -/
def LogRecord.seqNo (r : LogRecord) : Option Nat :=
  (parseLogRecordKey r.Key).map Prod.snd

/-- Whether the log holds a completion marker (a `LogRecordFinished` record)
tagged with the sequence number `seqNo`. -/
def hasFinished (log : List LogRecord) (seqNo : Nat) : Bool :=
  log.any (fun r => decide (r.Typ = LogRecordType.LogRecordFinished ∧ r.seqNo = some seqNo))

/-- Modelled from the spec: the recovery scan, which is not in `batch.go`:
"grouping by sequence number, keeping only groups with a trailing completion
marker". It keeps the records whose sequence number has a completion marker
in the log. -/
def recoveryScan (log : List LogRecord) : List LogRecord :=
  log.filter (fun r =>
    match r.seqNo with
    | some s => hasFinished log s
    | none => false)

/-! ## Example states -/

/-- The key `"a"`. -/
def keyA : Bytes := [0x61]

/-- The key `"b"`. -/
def keyB : Bytes := [0x62]

/-- The key `"c"`. -/
def keyC : Bytes := [0x63]

/-- A fresh engine: counter 0, empty index, empty log. -/
def freshDB : DB := { seqNo := 0, index := ⟨fun _ => none⟩, log := [] }

/-- An engine whose index has an entry for `"a"`. -/
def indexedDB : DB :=
  { seqNo := 1, index := (Index.mk (fun _ => none)).Put keyA (some ⟨0, 0⟩),
    log := [{ Key := logRecordKeyWithSeq keyA 1, Value := [0x31],
              Typ := LogRecordType.LogRecordNormal }, finishedRecord 1] }

/-- The pending record `{"a", "1", Normal}`. -/
def recordA : LogRecord :=
  { Key := keyA, Value := [0x31], Typ := LogRecordType.LogRecordNormal }

/-- The pending record `{"b", "2", Normal}`. -/
def recordB : LogRecord :=
  { Key := keyB, Value := [0x32], Typ := LogRecordType.LogRecordNormal }

/-- The pending record `{"c", no value, Deleted}`. -/
def recordC : LogRecord :=
  { Key := keyC, Value := [], Typ := LogRecordType.LogRecordDeleted }

/-- A batch with `MaxBatchNum = 10`, `SyncWrites` set, and two pending
entries, as after `Put("a", "1"); Put("b", "2")`. -/
def twoPuts : WriteBatch :=
  { options := { MaxBatchNum := 10, SyncWrites := true },
    pendingWrite := ⟨[(keyB, recordB), (keyA, recordA)]⟩ }

/-- A batch with `MaxBatchNum = 2` and three pending entries. -/
def threePending : WriteBatch :=
  { options := { MaxBatchNum := 2, SyncWrites := false },
    pendingWrite := ⟨[(keyC, recordC), (keyB, recordB), (keyA, recordA)]⟩ }

/-- An environment whose appends and sync all succeed, the append `i`
returning the position `(0, i)`; the first loop visits the map in the order
of the list, the second in the reverse order. -/
def envOk : Env :=
  { appendResult := fun i => .ok ⟨0, i⟩, activeFile := true, syncResult := none,
    range1 := id, range2 := List.reverse }

/-- An environment like `envOk` whose append `n` fails with the code 5. -/
def envFailAt (n : Nat) : Env :=
  { envOk with appendResult := fun i => if i = n then .error 5 else .ok ⟨0, i⟩ }

/-- An environment like `envOk` whose sync fails with the code 7. -/
def envSyncFail : Env := { envOk with syncResult := some 7 }

/-! ## Invariants of the reachable states -/

/-- The pending map of a batch built by `Put` and `Delete`, no caller having
written to a buffer it passed: one entry per key, every entry filed under the
key of its record, that key non-empty, and no entry of type
`LogRecordFinished`. -/
def WriteBatch.WF (wb : WriteBatch) : Prop :=
  (wb.pendingWrite.entries.map Prod.fst).Nodup ∧
  ∀ e ∈ wb.pendingWrite.entries,
    e.2.Key = e.1 ∧ e.1 ≠ [] ∧ e.2.Typ ≠ LogRecordType.LogRecordFinished

/-- Every entry of the pending map is filed under the key its record
carries, one entry per key: the pending map of a batch to whose key buffers
no caller has written since passing them to `Put` or `Delete`. -/
def WriteBatch.Filed (wb : WriteBatch) : Prop :=
  (wb.pendingWrite.entries.map Prod.fst).Nodup ∧
  ∀ e ∈ wb.pendingWrite.entries, e.2.Key = e.1

/-- The pending map of a batch built by `Put` and `Delete`, the callers
writing to the buffers they passed at will: one entry per key, every entry
filed under a non-empty key, its record carrying a key of that length and a
type other than `LogRecordFinished`. -/
def WriteBatch.Inv (wb : WriteBatch) : Prop :=
  (wb.pendingWrite.entries.map Prod.fst).Nodup ∧
  ∀ e ∈ wb.pendingWrite.entries,
    e.1 ≠ [] ∧ e.2.Key.length = e.1.length ∧ e.2.Typ ≠ LogRecordType.LogRecordFinished

/-- The log of an engine whose counter is advanced only by `Commit`: every
record that decodes to a sequence number decodes to one the counter has
reached. -/
def DB.LogBounded (db : DB) : Prop :=
  ∀ r ∈ db.log, ∀ s, r.seqNo = some s → s ≤ db.seqNo

/-! ## Further example states -/

/-- An engine whose counter holds the largest 64-bit value. -/
def lastSeqDB : DB := { seqNo := 2 ^ 64 - 1, index := ⟨fun _ => none⟩, log := [] }

/-- An engine whose counter is one below the largest 64-bit value. -/
def nearLastSeqDB : DB := { seqNo := 2 ^ 64 - 2, index := ⟨fun _ => none⟩, log := [] }

/-- A batch that passes the two checks at the head of `Commit`: its pending
map is non-empty and has at most `MaxBatchNum` entries, so `Commit` draws a
sequence number. -/
def WriteBatch.Draws (wb : WriteBatch) : Prop :=
  wb.pendingWrite.len ≠ 0 ∧ (wb.pendingWrite.len : Int) ≤ wb.options.MaxBatchNum

/-! ## The varint format, in the spec's words -/

/-- Following the spec's words: the number of 7-bit groups of the standard
unsigned LEB128 varint of `s`, the least `n ≥ 1` with `s < 128 ^ n`. -/
def leb128Groups (s : Nat) : Nat := Nat.log 128 s + 1

/-- Following the spec's words: the standard unsigned LEB128 varint of `s`:
its 7-bit groups, least significant first, the continuation bit `0x80` set on
every byte but the last. -/
def leb128 (s : Nat) : Bytes :=
  (List.range (leb128Groups s)).map (fun i =>
    UInt8.ofNat ((s / 128 ^ i) % 128 + (if i + 1 < leb128Groups s then 128 else 0)))

/-! ## Varints that overflow -/

/-- A description of the byte strings whose varint does not fit: after `k`
continuation bytes (bytes with the bit `0x80`) comes either a terminating
byte above 1, or one more continuation byte followed by at least one further
byte. For `k = 9` these are the varints whose tenth byte carries bits beyond
the 64th (a value overflowing 64 bits), or that go on to an eleventh byte (a
varint of more than 10 bytes). -/
def overflowsAfter (k : Nat) (buf : Bytes) : Bool :=
  decide ((buf.take k).length = k) && (buf.take k).all (fun b => decide (0x80 ≤ b)) &&
  (match buf.drop k with
   | [] => false
   | b :: rest =>
     (decide (b < 0x80) && decide (1 < b)) || (decide (0x80 ≤ b) && !rest.isEmpty))

/-- A byte string whose leading varint overflows 64 bits or is longer than
10 bytes. -/
def varintOverflows (buf : Bytes) : Bool := overflowsAfter 9 buf

/-- Nine continuation bytes followed by the terminating byte 2: the varint of
`2 ^ 64 + (2 ^ 63 - 1)`, which overflows 64 bits. -/
def overflowingKey : Bytes := [0xff, 0xff, 0xff, 0xff, 0xff, 0xff, 0xff, 0xff, 0xff, 0x02]

/-- Eleven continuation bytes: a varint of more than 10 bytes. -/
def overlongKey : Bytes :=
  [0x80, 0x80, 0x80, 0x80, 0x80, 0x80, 0x80, 0x80, 0x80, 0x80, 0x80]

/-! ## The end-to-end scenario -/

/-- The batch and the engine after `Put("a", "1")`, `Put("b", "2")` and
`Delete("a")` on a new batch with `MaxBatchNum = 10` and `SyncWrites` set,
with the errors the three calls returned. -/
def scenarioBatch (db : DB) : List (Option Error) × WriteBatch × DB :=
  let wb0 := NewWriteBatch { MaxBatchNum := 10, SyncWrites := true }
  let s1 := wb0.Put db keyA [0x31]
  let s2 := s1.2.1.Put s1.2.2 keyB [0x32]
  let s3 := s2.2.1.Delete s2.2.2 keyA
  ([s1.1, s2.1, s3.1], s3.2.1, s3.2.2)

/-- A batch with `MaxBatchNum = 10`, `SyncWrites` set, and the one pending
entry `{"b", "2", Normal}`. -/
def onlyB : WriteBatch :=
  { options := { MaxBatchNum := 10, SyncWrites := true },
    pendingWrite := ⟨[(keyB, recordB)]⟩ }

/-- The end-to-end scenario: the three calls of `scenarioBatch`, then
`Commit`. -/
def scenario (db : DB) (env : Env) : Option Error × WriteBatch × DB :=
  (scenarioBatch db).2.1.Commit (scenarioBatch db).2.2 env

/-! ## Executions -/

/-- An engine and the write batches created on it, in the order of their
creation. -/
structure System where
  db : DB
  batches : List WriteBatch

/-- A call on the system: `db.NewWriteBatch`, or `Put`, `Delete` or `Commit`
on the batch created `b`-th, the `Commit` in its environment; or a write by
the caller to the buffers it passed for the entry `k` of the batch `b`. -/
inductive Op where
  | NewWriteBatch (options : WriteBatchOptions)
  | Put (b : Nat) (key value : Bytes)
  | Delete (b : Nat) (key : Bytes)
  | Commit (b : Nat) (env : Env)
  | Write (b : Nat) (k key value : Bytes)

/-- Whether a call is a `Commit`. -/
def Op.isCommit : Op → Bool
  | .Commit _ _ => true
  | _ => false

/-- Whether a step is a write by the caller to a buffer it passed. -/
def Op.isWrite : Op → Bool
  | .Write _ _ _ _ => true
  | _ => false

/-- The `range` loops of a `Commit` call visit the pending map in orders of
its entries. -/
def Op.Valid : Op → Prop
  | .Commit _ env => env.Ranges
  | _ => True

/-- The system after a method of the batch `b` has returned `r`: the batch
and the engine are those the method left. -/
def System.update (sys : System) (b : Nat) (r : Option Error × WriteBatch × DB) : System :=
  { db := r.2.2, batches := sys.batches.set b r.2.1 }

/-- The system after one call. A call on a batch that was not created changes
nothing. -/
def System.step (sys : System) : Op → System
  | .NewWriteBatch options => { sys with batches := sys.batches ++ [NewWriteBatch options] }
  | .Put b key value =>
    match sys.batches[b]? with
    | some wb => sys.update b (wb.Put sys.db key value)
    | none => sys
  | .Delete b key =>
    match sys.batches[b]? with
    | some wb => sys.update b (wb.Delete sys.db key)
    | none => sys
  | .Commit b env =>
    match sys.batches[b]? with
    | some wb => sys.update b (wb.Commit sys.db env)
    | none => sys
  | .Write b k key value =>
    match sys.batches[b]? with
    | some wb => { sys with batches := sys.batches.set b (wb.callerWrite k key value) }
    | none => sys

/-- The system after a sequence of calls. -/
def System.run (sys : System) : List Op → System
  | [] => sys
  | op :: rest => (sys.step op).run rest

/-- The records a call appends to the log: those the log holds after the call
beyond the ones it held before. -/
def System.appended (sys : System) (op : Op) : List LogRecord :=
  (sys.step op).db.log.drop sys.db.log.length

/-- The records each call of a sequence appends to the log, call by call. -/
def System.trace (sys : System) : List Op → List (List LogRecord)
  | [] => []
  | op :: rest => sys.appended op :: (sys.step op).trace rest

/-- The number of `Commit` calls in a sequence of calls. -/
def commitCount (ops : List Op) : Nat := (ops.filter Op.isCommit).length

/-- A system just opened: an engine with counter 0 and an empty log, and no
batch yet. -/
def System.fresh (index : Index) : System :=
  { db := { seqNo := 0, index := index, log := [] }, batches := [] }

/-- Every batch of the system satisfies the invariant of the pending map. -/
def System.BatchesWF (sys : System) : Prop := ∀ wb ∈ sys.batches, wb.WF

/-- Every batch of the system satisfies the invariant that holds whatever the
callers write to the buffers they passed. -/
def System.BatchesInv (sys : System) : Prop := ∀ wb ∈ sys.batches, wb.Inv

/-- The counter does not wrap during a sequence of calls: a call that
changes the counter finds it below `2 ^ 64 - 1`. -/
def System.NoWrap (sys : System) : List Op → Prop
  | [] => True
  | op :: rest =>
    ((sys.step op).db.seqNo ≠ sys.db.seqNo → sys.db.seqNo < 2 ^ 64 - 1) ∧
    (sys.step op).NoWrap rest

/-- Every record of the log decodes to a sequence number between 1 and the
counter. -/
def DB.LogInRange (db : DB) : Prop :=
  ∀ r ∈ db.log, ∃ s, r.seqNo = some s ∧ 1 ≤ s ∧ s ≤ db.seqNo

/-- The completion markers of the log tagged with the sequence number `s`. -/
def finishedOf (log : List LogRecord) (s : Nat) : List LogRecord :=
  log.filter (fun r => decide (r.Typ = LogRecordType.LogRecordFinished ∧ r.seqNo = some s))

/-! ## Example executions -/

/-- An execution on one batch: two `Put`, a `Commit` that succeeds, a third
`Put`, and a `Commit` whose first append fails. -/
def exampleOps : List Op :=
  [Op.NewWriteBatch { MaxBatchNum := 10, SyncWrites := true },
   Op.Put 0 keyA [0x31], Op.Put 0 keyB [0x32], Op.Commit 0 envOk,
   Op.Put 0 keyC [0x33], Op.Commit 0 (envFailAt 0)]

/-- An execution that leaves the sentinel key `"txn-fix"` pending. -/
def sentinelOps : List Op :=
  [Op.NewWriteBatch { MaxBatchNum := 10, SyncWrites := true }, Op.Put 0 txnFixKey [0x31]]

/-- The pending record `{"txn-fix", "1", Normal}`. -/
def recordFix : LogRecord :=
  { Key := txnFixKey, Value := [0x31], Typ := LogRecordType.LogRecordNormal }

/-- The batch left by `sentinelOps`. -/
def sentinelBatch : WriteBatch :=
  { options := { MaxBatchNum := 10, SyncWrites := true },
    pendingWrite := ⟨[(txnFixKey, recordFix)]⟩ }

/-- The batch after `Put("a", "1")` on a new batch and a write of the byte
`'b'` by the caller to the key buffer it passed: the entry is filed under
`"a"` and its record carries the key `"b"`. -/
def aliasedBatch : WriteBatch :=
  ((NewWriteBatch { MaxBatchNum := 10, SyncWrites := true }).Put freshDB keyA [0x31]).2.1.callerWrite
    keyA keyB [0x31]

/-- The execution that leaves `aliasedBatch`. -/
def aliasOps : List Op :=
  [Op.NewWriteBatch { MaxBatchNum := 10, SyncWrites := true }, Op.Put 0 keyA [0x31],
   Op.Write 0 keyA keyB [0x31]]

/-- An engine whose counter has wrapped once and holds `2 ^ 64 - 1` again,
its log having the completion marker of the commit that drew 0. -/
def wrappedDB : DB :=
  { seqNo := 2 ^ 64 - 1, index := ⟨fun _ => none⟩, log := [finishedRecord 0] }

/-- A system whose counter holds `2 ^ 64 - 3`, with the batches `twoPuts`, an
empty batch and `onlyB`. -/
def nearWrapSystem : System :=
  { db := { seqNo := 2 ^ 64 - 3, index := ⟨fun _ => none⟩, log := [] },
    batches := [twoPuts, NewWriteBatch { MaxBatchNum := 10, SyncWrites := true }, onlyB] }

/-- A system with the two batches `twoPuts` and `onlyB` on a fresh engine. -/
def twoBatches : System := { db := freshDB, batches := [twoPuts, onlyB] }

/-! ## Lemmas on bytes and varints -/

theorem byte_toNat (n : Nat) : (UInt8.ofNat n).toNat = n % 256 := by
  simp [UInt8.ofNat, UInt8.toNat]

theorem UInt8_lt_iff (a b : UInt8) : a < b ↔ a.toNat < b.toNat := Iff.rfl

theorem UInt8_toNat_or (a b : UInt8) : (a ||| b).toNat = a.toNat ||| b.toNat := by
  show (UInt8.lor a b).toNat = _
  simp [UInt8.lor, UInt8.toNat]

theorem UInt8_toNat_and (a b : UInt8) : (a &&& b).toNat = a.toNat &&& b.toNat := by
  show (UInt8.land a b).toNat = _
  simp [UInt8.land, UInt8.toNat]

set_option maxRecDepth 100000 in
theorem bits_aux : ∀ a < 256, (a ||| 128) &&& 127 = a % 128 ∧ 128 ≤ (a ||| 128) := by
  decide

theorem PutUvarint_lt (x : Nat) (h : x < 0x80) : PutUvarint x = [UInt8.ofNat x] := by
  rw [PutUvarint]; simp; omega

theorem PutUvarint_ge (x : Nat) (h : 0x80 ≤ x) :
    PutUvarint x = (UInt8.ofNat x ||| 0x80) :: PutUvarint (x >>> 7) := by
  rw [PutUvarint]; simp [h]

theorem contByte_toNat (x : Nat) : (UInt8.ofNat x ||| 0x80).toNat = (x % 256) ||| 128 := by
  rw [UInt8_toNat_or, byte_toNat]; rfl

theorem contByte_not_lt (x : Nat) : ¬ (UInt8.ofNat x ||| 0x80) < 0x80 := by
  rw [UInt8_lt_iff, contByte_toNat]
  have := (bits_aux (x % 256) (Nat.mod_lt _ (by decide))).2
  show ¬ _ < 128
  omega

theorem contByte_payload (x : Nat) : ((UInt8.ofNat x ||| 0x80) &&& 0x7f).toNat = x % 128 := by
  rw [UInt8_toNat_and, contByte_toNat]
  have := (bits_aux (x % 256) (Nat.mod_lt _ (by decide))).1
  show _ &&& 127 = _
  omega

theorem lor_shift (acc y s : Nat) (h : acc < 2 ^ s) : acc ||| (y <<< s) = acc + y * 2 ^ s := by
  rw [Nat.shiftLeft_eq, Nat.lor_comm, Nat.mul_comm, ← Nat.mul_add_lt_is_or h, Nat.add_comm]

theorem uvarintLoop_PutUvarint (v : Nat) : ∀ (rest : Bytes) (acc i : Nat), i ≤ 9 → acc < 2 ^ (7 * i) →
    v * 2 ^ (7 * i) < 2 ^ 64 →
    uvarintLoop (PutUvarint v ++ rest) acc (7 * i) i
      = (acc + v * 2 ^ (7 * i), (i : Int) + (PutUvarint v).length) := by
  induction v using Nat.strong_induction_on with
  | _ v ih =>
    intro rest acc i hi hacc hv
    by_cases hge : 0x80 ≤ v
    · rw [PutUvarint_ge v hge]
      have hi8 : i ≤ 8 := by
        by_contra hcon
        have : i = 9 := by omega
        subst this
        norm_num at hv
        omega
      simp only [List.cons_append, uvarintLoop, MaxVarintLen64]
      rw [if_neg (by omega), if_neg (contByte_not_lt v), contByte_payload]
      have hlow : v % 128 * 2 ^ (7 * i) < 2 ^ 64 :=
        lt_of_le_of_lt (Nat.mul_le_mul_right _ (Nat.mod_le v 128)) hv
      have hsplit : v = v % 128 + 128 * (v / 128) := (Nat.mod_add_div v 128).symm
      have hpow7 : 2 ^ (7 * (i + 1)) = 128 * 2 ^ (7 * i) := by
        rw [Nat.mul_add, Nat.pow_add, Nat.mul_comm]
      have hshift : v >>> 7 = v / 128 := by
        rw [Nat.shiftRight_eq_div_pow]
      rw [Nat.shiftLeft_eq, Nat.mod_eq_of_lt hlow, ← Nat.shiftLeft_eq, lor_shift acc _ _ hacc,
        show 7 * i + 7 = 7 * (i + 1) by ring, hshift]
      have hrec := ih (v / 128) (by omega) rest (acc + v % 128 * 2 ^ (7 * i)) (i + 1) (by omega)
        (by
          rw [hpow7]
          have : v % 128 < 128 := Nat.mod_lt _ (by decide)
          nlinarith)
        (by
          rw [hpow7]
          calc v / 128 * (128 * 2 ^ (7 * i)) = (128 * (v / 128)) * 2 ^ (7 * i) := by ring
            _ ≤ v * 2 ^ (7 * i) := Nat.mul_le_mul_right _ (by omega)
            _ < 2 ^ 64 := hv)
      rw [List.append_eq, hrec, hpow7]
      refine Prod.ext ?_ ?_
      · show acc + v % 128 * 2 ^ (7 * i) + v / 128 * (128 * 2 ^ (7 * i)) = acc + v * 2 ^ (7 * i)
        have : v * 2 ^ (7 * i) = (v % 128 + 128 * (v / 128)) * 2 ^ (7 * i) := by rw [← hsplit]
        rw [this]; ring
      · simp only [List.length_cons, Nat.cast_add, Nat.cast_one]; ring
    · have hlt : v < 0x80 := by omega
      rw [PutUvarint_lt v hlt]
      have hb : (UInt8.ofNat v).toNat = v := by rw [byte_toNat]; omega
      have hblt : UInt8.ofNat v < 0x80 := by
        rw [UInt8_lt_iff, hb]; exact hlt
      simp only [List.singleton_append, uvarintLoop, MaxVarintLen64]
      rw [if_neg (by omega), if_pos hblt]
      have hnot : ¬ (i = 10 - 1 ∧ UInt8.ofNat v > 1) := by
        rintro ⟨h9, hgt⟩
        have h9' : i = 9 := by omega
        subst h9'
        have hgt' : (1 : UInt8).toNat < (UInt8.ofNat v).toNat := hgt
        rw [hb] at hgt'
        have h1 : (1 : UInt8).toNat = 1 := by decide
        rw [h1] at hgt'
        norm_num at hv
        omega
      rw [if_neg hnot, hb, Nat.shiftLeft_eq, Nat.mod_eq_of_lt hv, ← Nat.shiftLeft_eq,
        lor_shift acc _ _ hacc]
      simp [Nat.shiftLeft_eq]

theorem Uvarint_PutUvarint (v : Nat) (rest : Bytes) (hv : v < 2 ^ 64) :
    Uvarint (PutUvarint v ++ rest) = (v, ((PutUvarint v).length : Int)) := by
  have h := uvarintLoop_PutUvarint v rest 0 0 (by omega) (by norm_num) (by simpa using hv)
  simpa [Uvarint] using h

theorem parseLogRecordKey_logRecordKeyWithSeq (key : Bytes) (seqNo : Nat) (hs : seqNo < 2 ^ 64) :
    parseLogRecordKey (logRecordKeyWithSeq key seqNo) = some (key, seqNo) := by
  simp only [parseLogRecordKey, logRecordKeyWithSeq, Uvarint_PutUvarint seqNo key hs]
  rw [if_pos (by simp)]
  simp

/-! ## Lemmas on Go maps -/

theorem find_filter_ne {V : Type} (l : List (Bytes × V)) (k k' : Bytes) (h : k' ≠ k) :
    (l.filter (fun e => e.1 ≠ k)).find? (fun e => e.1 = k') = l.find? (fun e => e.1 = k') := by
  induction l with
  | nil => rfl
  | cons e rest ih =>
    by_cases hek : e.1 = k
    · have hek' : ¬ e.1 = k' := fun h' => h (h'.symm.trans hek)
      have h1 : decide (e.1 ≠ k) = false := by simp [hek]
      have h2 : decide (e.1 = k') = false := by simp [hek']
      rw [List.filter_cons, List.find?_cons]
      simp only [h1, h2, Bool.false_eq_true, if_false, ih]
    · have h1 : decide (e.1 ≠ k) = true := by simp [hek]
      rw [List.filter_cons]
      simp only [h1, if_true, List.find?_cons, ih]

theorem find_filter_self {V : Type} (l : List (Bytes × V)) (k : Bytes) :
    (l.filter (fun e => e.1 ≠ k)).find? (fun e => e.1 = k) = none := by
  simp [List.find?_eq_none]

theorem GoMap.get_set_self {V : Type} (m : GoMap V) (k : Bytes) (v : V) :
    (m.set k v).get k = some v := by
  simp [GoMap.get, GoMap.set]

theorem GoMap.get_set_ne {V : Type} (m : GoMap V) (k k' : Bytes) (v : V) (h : k' ≠ k) :
    (m.set k v).get k' = m.get k' := by
  have hk : ¬ k = k' := fun h' => h h'.symm
  simp only [GoMap.get, GoMap.set, List.find?_cons, decide_eq_true_eq, hk, decide_False]
  rw [find_filter_ne _ _ _ h]

theorem GoMap.get_delete_self {V : Type} (m : GoMap V) (k : Bytes) :
    (m.delete k).get k = none := by
  simp only [GoMap.get, GoMap.delete, find_filter_self, Option.map_none']

theorem GoMap.get_delete_ne {V : Type} (m : GoMap V) (k k' : Bytes) (h : k' ≠ k) :
    (m.delete k).get k' = m.get k' := by
  simp only [GoMap.get, GoMap.delete, find_filter_ne _ _ _ h]

theorem GoMap.get_eq_none_iff {V : Type} (m : GoMap V) (k : Bytes) :
    m.get k = none ↔ ∀ e ∈ m.entries, e.1 ≠ k := by
  simp [GoMap.get, List.find?_eq_none]

theorem GoMap.delete_of_get_none {V : Type} (m : GoMap V) (k : Bytes) (h : m.get k = none) :
    m.delete k = m := by
  have h' := (GoMap.get_eq_none_iff m k).1 h
  cases m with
  | mk entries =>
    simp only [GoMap.delete, GoMap.mk.injEq, List.filter_eq_self]
    intro e he
    simpa using h' e he

theorem GoMap.count_set {V : Type} (m : GoMap V) (k : Bytes) (v : V) :
    ((m.set k v).entries.filter (fun e => e.1 = k)).length = 1 := by
  simp [GoMap.set, List.filter_cons, List.filter_filter]

/-! ## Lemmas on the two loops of Commit -/

theorem appendPending_nil (env : Env) (s n : Nat) (db : DB) (positions : GoMap LogRecordPos) :
    appendPending env s [] n db positions = (db, .ok positions) := rfl

theorem appendPending_cons_ok (env : Env) (s n : Nat) (db : DB) (positions : GoMap LogRecordPos)
    (r : LogRecord) (rest : List LogRecord) (pos : LogRecordPos)
    (h : env.appendResult n = .ok pos) :
    appendPending env s (r :: rest) n db positions
      = appendPending env s rest (n + 1) { db with log := db.log ++ [r.withSeq s] }
          (positions.set r.Key pos) := by
  simp only [appendPending, DB.appendLogRecord, h, LogRecord.withSeq]

theorem appendPending_cons_error (env : Env) (s n : Nat) (db : DB)
    (positions : GoMap LogRecordPos) (r : LogRecord) (rest : List LogRecord) (code : Nat)
    (h : env.appendResult n = .error code) :
    appendPending env s (r :: rest) n db positions = (db, .error (Error.store code)) := by
  simp only [appendPending, DB.appendLogRecord, h]

/-- When the first loop ends without error, every append succeeded and the log
has grown by the tagged records in the order visited. -/
theorem appendPending_ok_log (env : Env) (s : Nat) :
    ∀ (l : List LogRecord) (n : Nat) (db db1 : DB) (positions positions1 : GoMap LogRecordPos),
      appendPending env s l n db positions = (db1, .ok positions1) →
      db1 = { db with log := db.log ++ l.map (fun r => r.withSeq s) } ∧
      ∀ i, i < l.length → ∃ pos, env.appendResult (n + i) = .ok pos := by
  intro l
  induction l with
  | nil =>
    intro n db db1 positions positions1 h
    rw [appendPending_nil] at h
    have h1 := (Prod.mk.inj h).1
    subst h1
    exact ⟨by simp, fun i hi => absurd hi (Nat.not_lt_zero i)⟩
  | cons r rest ih =>
    intro n db db1 positions positions1 h
    cases hres : env.appendResult n with
    | error code =>
      rw [appendPending_cons_error env s n db positions r rest code hres] at h
      have h2 := (Prod.mk.inj h).2
      cases h2
    | ok pos =>
      rw [appendPending_cons_ok env s n db positions r rest pos hres] at h
      obtain ⟨hdb, hall⟩ := ih (n + 1) _ db1 _ positions1 h
      refine ⟨?_, ?_⟩
      · rw [hdb]
        simp [List.append_assoc]
      · intro i hi
        cases i with
        | zero => exact ⟨pos, hres⟩
        | succ j =>
          have hj : j < rest.length := by simpa using hi
          obtain ⟨p, hp⟩ := hall j hj
          exact ⟨p, by rw [← hp]; congr 1; omega⟩

/-- When the first loop ends without error over records with distinct keys,
`positions` holds, under the key of the record visited `i`-th, the position
the `i`-th append returned, and is as before on the other keys. -/
theorem appendPending_ok_positions (env : Env) (s : Nat) :
    ∀ (l : List LogRecord) (n : Nat) (db db1 : DB) (positions positions1 : GoMap LogRecordPos),
      (l.map LogRecord.Key).Nodup →
      appendPending env s l n db positions = (db1, .ok positions1) →
      (∀ i (h : i < l.length),
        ∃ pos, env.appendResult (n + i) = .ok pos ∧ positions1.get (l[i]).Key = some pos) ∧
      ∀ k, k ∉ l.map LogRecord.Key → positions1.get k = positions.get k := by
  intro l
  induction l with
  | nil =>
    intro n db db1 positions positions1 _ h
    rw [appendPending_nil] at h
    have h2 := (Prod.mk.inj h).2
    cases h2
    exact ⟨fun i hi => absurd hi (Nat.not_lt_zero i), fun k _ => rfl⟩
  | cons r rest ih =>
    intro n db db1 positions positions1 hnd h
    have hnd' : r.Key ∉ rest.map LogRecord.Key ∧ (rest.map LogRecord.Key).Nodup := by
      simpa using hnd
    cases hres : env.appendResult n with
    | error code =>
      rw [appendPending_cons_error env s n db positions r rest code hres] at h
      have h2 := (Prod.mk.inj h).2
      cases h2
    | ok pos =>
      rw [appendPending_cons_ok env s n db positions r rest pos hres] at h
      obtain ⟨hpos, hother⟩ := ih (n + 1) _ db1 _ positions1 hnd'.2 h
      refine ⟨?_, ?_⟩
      · intro i hi
        cases i with
        | zero =>
          refine ⟨pos, hres, ?_⟩
          show positions1.get r.Key = some pos
          rw [hother r.Key hnd'.1, GoMap.get_set_self]
        | succ j =>
          have hj : j < rest.length := by simpa using hi
          obtain ⟨p, hp, hget⟩ := hpos j hj
          refine ⟨p, by rw [← hp]; congr 1; omega, ?_⟩
          simpa using hget
      · intro k hk
        have hk' : k ≠ r.Key ∧ k ∉ rest.map LogRecord.Key := by
          simpa using hk
        rw [hother k hk'.2, GoMap.get_set_ne _ _ _ _ hk'.1]

/-- When the first loop ends with an error, it is the error of the first
failing append, and the log has grown by the records appended before it. -/
theorem appendPending_error (env : Env) (s : Nat) :
    ∀ (l : List LogRecord) (n : Nat) (db db1 : DB) (positions : GoMap LogRecordPos)
      (err : Error),
      appendPending env s l n db positions = (db1, .error err) →
      ∃ j code, j < l.length ∧ env.appendResult (n + j) = .error code ∧
        err = Error.store code ∧
        db1 = { db with log := db.log ++ (l.take j).map (fun r => r.withSeq s) } := by
  intro l
  induction l with
  | nil =>
    intro n db db1 positions err h
    rw [appendPending_nil] at h
    have h2 := (Prod.mk.inj h).2
    cases h2
  | cons r rest ih =>
    intro n db db1 positions err h
    cases hres : env.appendResult n with
    | error code =>
      rw [appendPending_cons_error env s n db positions r rest code hres] at h
      have h1 := (Prod.mk.inj h).1
      have h2 := (Prod.mk.inj h).2
      cases h2
      subst h1
      exact ⟨0, code, by simp, hres, rfl, by simp⟩
    | ok pos =>
      rw [appendPending_cons_ok env s n db positions r rest pos hres] at h
      obtain ⟨j, code, hj, hfail, herr, hdb⟩ := ih (n + 1) _ db1 _ err h
      refine ⟨j + 1, code, by simpa using hj, by rw [← hfail]; congr 1; omega, herr, ?_⟩
      rw [hdb]
      simp [List.append_assoc]

/-- When the appends `n, ..., n + j - 1` succeed and the append `n + j` fails
while a record is left to visit, the first loop ends with that error after
appending the first `j` records. -/
theorem appendPending_fail (env : Env) (s : Nat) :
    ∀ (l : List LogRecord) (n : Nat) (db : DB) (positions : GoMap LogRecordPos) (j code : Nat),
      j < l.length →
      (∀ i, i < j → ∃ pos, env.appendResult (n + i) = .ok pos) →
      env.appendResult (n + j) = .error code →
      appendPending env s l n db positions
        = ({ db with log := db.log ++ (l.take j).map (fun r => r.withSeq s) },
            .error (Error.store code)) := by
  intro l
  induction l with
  | nil =>
    intro n db positions j code hj
    exact absurd hj (Nat.not_lt_zero j)
  | cons r rest ih =>
    intro n db positions j code hj hok hfail
    cases j with
    | zero =>
      rw [appendPending_cons_error env s n db positions r rest code (by simpa using hfail)]
      simp
    | succ j =>
      obtain ⟨pos, hpos⟩ := hok 0 (Nat.succ_pos j)
      rw [appendPending_cons_ok env s n db positions r rest pos (by simpa using hpos)]
      rw [ih (n + 1) _ _ j code (by simpa using hj)
        (fun i hi => by
          obtain ⟨p, hp⟩ := hok (i + 1) (by omega)
          exact ⟨p, by rw [← hp]; congr 1; omega⟩)
        (by rw [← hfail]; congr 1; omega)]
      simp [List.append_assoc]

/-- When all the appends of the first loop succeed, the loop ends without
error after appending every record. -/
theorem appendPending_succeeds (env : Env) (s : Nat) :
    ∀ (l : List LogRecord) (n : Nat) (db : DB) (positions : GoMap LogRecordPos),
      (∀ i, i < l.length → ∃ pos, env.appendResult (n + i) = .ok pos) →
      ∃ positions1, appendPending env s l n db positions
        = ({ db with log := db.log ++ l.map (fun r => r.withSeq s) }, .ok positions1) := by
  intro l
  induction l with
  | nil =>
    intro n db positions _
    exact ⟨positions, by simp [appendPending_nil]⟩
  | cons r rest ih =>
    intro n db positions hok
    obtain ⟨pos, hpos⟩ := hok 0 (by simp)
    rw [appendPending_cons_ok env s n db positions r rest pos (by simpa using hpos)]
    obtain ⟨positions1, h1⟩ := ih (n + 1) { db with log := db.log ++ [r.withSeq s] }
      (positions.set r.Key pos)
      (fun i hi => by
        obtain ⟨p, hp⟩ := hok (i + 1) (by simpa using hi)
        exact ⟨p, by rw [← hp]; congr 1; omega⟩)
    exact ⟨positions1, by rw [h1]; simp [List.append_assoc]⟩

theorem Index.Get_Put_self (idx : Index) (k : Bytes) (pos : Option LogRecordPos) :
    (idx.Put k pos).Get k = pos := by
  simp [Index.Get, Index.Put]

theorem Index.Get_Put_ne (idx : Index) (k k2 : Bytes) (pos : Option LogRecordPos) (h : k2 ≠ k) :
    (idx.Put k pos).Get k2 = idx.Get k2 := by
  simp [Index.Get, Index.Put, h]

theorem Index.Get_Delete_self (idx : Index) (k : Bytes) : (idx.Delete k).Get k = none := by
  simp [Index.Get, Index.Delete]

theorem Index.Get_Delete_ne (idx : Index) (k k2 : Bytes) (h : k2 ≠ k) :
    (idx.Delete k).Get k2 = idx.Get k2 := by
  simp [Index.Get, Index.Delete, h]

theorem find_key_none (l : List LogRecord) (k : Bytes) (h : k ∉ l.map LogRecord.Key) :
    l.find? (fun r => r.Key = k) = none := by
  rw [List.find?_eq_none]
  intro r hr hk
  exact h (List.mem_map.2 ⟨r, hr, by simpa using hk⟩)

theorem find_key_mem (l : List LogRecord) (r : LogRecord) (hnd : (l.map LogRecord.Key).Nodup)
    (hr : r ∈ l) : l.find? (fun x => x.Key = r.Key) = some r := by
  induction l with
  | nil => cases hr
  | cons x rest ih =>
    have hnd' : x.Key ∉ rest.map LogRecord.Key ∧ (rest.map LogRecord.Key).Nodup := by
      simpa using hnd
    rcases List.mem_cons.1 hr with hx | hrest
    · subst hx
      simp [List.find?_cons]
    · have hne : ¬ x.Key = r.Key := fun h =>
        hnd'.1 (h ▸ List.mem_map.2 ⟨r, hrest, rfl⟩)
      rw [List.find?_cons]
      simp only [hne, decide_False]
      exact ih hnd'.2 hrest

/-- What the second loop leaves in the index at the key `k`, over records with
distinct keys: the outcome of the one record of key `k`, else the old entry. -/
theorem applyPending_Get (positions : GoMap LogRecordPos) :
    ∀ (l : List LogRecord) (index : Index) (k : Bytes), (l.map LogRecord.Key).Nodup →
      (applyPending positions l index).Get k =
        match l.find? (fun r => r.Key = k) with
        | none => index.Get k
        | some r =>
          if r.Typ = LogRecordType.LogRecordNormal then positions.get k
          else if r.Typ = LogRecordType.LogRecordDeleted then none
          else index.Get k := by
  intro l
  induction l with
  | nil => intro index k _; rfl
  | cons r rest ih =>
    intro index k hnd
    have hnd' : r.Key ∉ rest.map LogRecord.Key ∧ (rest.map LogRecord.Key).Nodup := by
      simpa using hnd
    by_cases hk : r.Key = k
    · subst hk
      have hfind : (r :: rest).find? (fun x => x.Key = r.Key) = some r := by
        simp [List.find?_cons]
      have hnone := find_key_none rest r.Key hnd'.1
      rw [hfind]
      simp only [applyPending]
      split
      · rw [ih _ _ hnd'.2, hnone]
        exact Index.Get_Put_self _ _ _
      · split
        · rw [ih _ _ hnd'.2, hnone]
          exact Index.Get_Delete_self _ _
        · rw [ih _ _ hnd'.2, hnone]
    · have hfind : (r :: rest).find? (fun x => x.Key = k) = rest.find? (fun x => x.Key = k) := by
        rw [List.find?_cons]
        simp only [hk, decide_False]
      have hk' : k ≠ r.Key := fun h => hk h.symm
      rw [hfind]
      simp only [applyPending]
      split
      · rw [ih _ _ hnd'.2, Index.Get_Put_ne _ _ _ _ hk']
      · split
        · rw [ih _ _ hnd'.2, Index.Get_Delete_ne _ _ _ hk']
        · rw [ih _ _ hnd'.2]

/-! ## Lemmas on Commit -/

theorem Commit_of_append_error (wb : WriteBatch) (db : DB) (env : Env) (db1 : DB) (err : Error)
    (hne : wb.pendingWrite.len ≠ 0) (hmax : (wb.pendingWrite.len : Int) ≤ wb.options.MaxBatchNum)
    (happ : appendPending env ((db.seqNo + 1) % 2 ^ 64) (env.range1 wb.pendingWrite.values) 0
      { db with seqNo := (db.seqNo + 1) % 2 ^ 64 } GoMap.empty = (db1, .error err)) :
    wb.Commit db env = (some err, wb, db1) := by
  unfold WriteBatch.Commit
  rw [if_neg hne, if_neg (by omega)]
  simp only [happ]

theorem Commit_of_marker_error (wb : WriteBatch) (db : DB) (env : Env) (db1 : DB)
    (positions : GoMap LogRecordPos) (code : Nat)
    (hne : wb.pendingWrite.len ≠ 0) (hmax : (wb.pendingWrite.len : Int) ≤ wb.options.MaxBatchNum)
    (happ : appendPending env ((db.seqNo + 1) % 2 ^ 64) (env.range1 wb.pendingWrite.values) 0
      { db with seqNo := (db.seqNo + 1) % 2 ^ 64 } GoMap.empty = (db1, .ok positions))
    (hmark : env.appendResult (env.range1 wb.pendingWrite.values).length = .error code) :
    wb.Commit db env = (some (Error.store code), wb, db1) := by
  unfold WriteBatch.Commit
  rw [if_neg hne, if_neg (by omega)]
  simp only [happ, DB.appendLogRecord, hmark]

theorem Commit_of_sync_error (wb : WriteBatch) (db : DB) (env : Env) (db1 : DB)
    (positions : GoMap LogRecordPos) (pos : LogRecordPos) (code : Nat)
    (hne : wb.pendingWrite.len ≠ 0) (hmax : (wb.pendingWrite.len : Int) ≤ wb.options.MaxBatchNum)
    (happ : appendPending env ((db.seqNo + 1) % 2 ^ 64) (env.range1 wb.pendingWrite.values) 0
      { db with seqNo := (db.seqNo + 1) % 2 ^ 64 } GoMap.empty = (db1, .ok positions))
    (hmark : env.appendResult (env.range1 wb.pendingWrite.values).length = .ok pos)
    (hsync : (if wb.options.SyncWrites && env.activeFile then env.syncResult else none)
      = some code) :
    wb.Commit db env
      = (some (Error.store code), wb,
          { db1 with log := db1.log ++ [finishedRecord ((db.seqNo + 1) % 2 ^ 64)] }) := by
  unfold WriteBatch.Commit
  rw [if_neg hne, if_neg (by omega)]
  simp only [happ, DB.appendLogRecord, hmark, hsync, finishedRecord]

theorem Commit_of_success (wb : WriteBatch) (db : DB) (env : Env) (db1 : DB)
    (positions : GoMap LogRecordPos) (pos : LogRecordPos)
    (hne : wb.pendingWrite.len ≠ 0) (hmax : (wb.pendingWrite.len : Int) ≤ wb.options.MaxBatchNum)
    (happ : appendPending env ((db.seqNo + 1) % 2 ^ 64) (env.range1 wb.pendingWrite.values) 0
      { db with seqNo := (db.seqNo + 1) % 2 ^ 64 } GoMap.empty = (db1, .ok positions))
    (hmark : env.appendResult (env.range1 wb.pendingWrite.values).length = .ok pos)
    (hsync : (if wb.options.SyncWrites && env.activeFile then env.syncResult else none)
      = none) :
    wb.Commit db env
      = (none, { wb with pendingWrite := GoMap.empty },
          { db1 with
            log := db1.log ++ [finishedRecord ((db.seqNo + 1) % 2 ^ 64)],
            index := applyPending positions (env.range2 wb.pendingWrite.values) db1.index }) := by
  unfold WriteBatch.Commit
  rw [if_neg hne, if_neg (by omega)]
  simp only [happ, DB.appendLogRecord, hmark, hsync, finishedRecord]

/-- A `Commit` on a non-empty pending map that returns no error passed the
size check, made all its appends and was not stopped by the sync. -/
theorem Commit_success_inv (wb : WriteBatch) (db : DB) (env : Env)
    (hne : wb.pendingWrite.len ≠ 0) (hsucc : (wb.Commit db env).1 = none) :
    (wb.pendingWrite.len : Int) ≤ wb.options.MaxBatchNum ∧
    ∃ db1 positions pos,
      appendPending env ((db.seqNo + 1) % 2 ^ 64) (env.range1 wb.pendingWrite.values) 0
        { db with seqNo := (db.seqNo + 1) % 2 ^ 64 } GoMap.empty = (db1, .ok positions) ∧
      env.appendResult (env.range1 wb.pendingWrite.values).length = .ok pos ∧
      (if wb.options.SyncWrites && env.activeFile then env.syncResult else none) = none := by
  by_cases hmax : (wb.pendingWrite.len : Int) ≤ wb.options.MaxBatchNum
  · refine ⟨hmax, ?_⟩
    rcases happ : appendPending env ((db.seqNo + 1) % 2 ^ 64)
      (env.range1 wb.pendingWrite.values) 0
      { db with seqNo := (db.seqNo + 1) % 2 ^ 64 } GoMap.empty with ⟨db1, res⟩
    cases res with
    | error err =>
      rw [Commit_of_append_error wb db env db1 err hne hmax happ] at hsucc
      cases hsucc
    | ok positions =>
      cases hmark : env.appendResult (env.range1 wb.pendingWrite.values).length with
      | error code =>
        rw [Commit_of_marker_error wb db env db1 positions code hne hmax happ hmark] at hsucc
        cases hsucc
      | ok pos =>
        cases hsync : (if wb.options.SyncWrites && env.activeFile then env.syncResult
          else none) with
        | some code =>
          rw [Commit_of_sync_error wb db env db1 positions pos code hne hmax happ hmark
            hsync] at hsucc
          cases hsucc
        | none => exact ⟨db1, positions, pos, rfl, rfl, rfl⟩
  · exfalso
    unfold WriteBatch.Commit at hsucc
    rw [if_neg hne, if_pos (by omega)] at hsucc
    cases hsucc

theorem hasFinished_append (l1 l2 : List LogRecord) (s : Nat) :
    hasFinished (l1 ++ l2) s = (hasFinished l1 s || hasFinished l2 s) := by
  simp [hasFinished, List.any_append]

theorem hasFinished_withSeq (l : List LogRecord) (s1 s : Nat)
    (h : ∀ r ∈ l, r.Typ ≠ LogRecordType.LogRecordFinished) :
    hasFinished (l.map (fun r => r.withSeq s1)) s = false := by
  simp only [hasFinished, List.any_eq_false, List.mem_map, decide_eq_true_eq]
  rintro x ⟨r, hr, rfl⟩ ⟨htyp, _⟩
  exact h r hr htyp

theorem recoveryScan_seqNo (log : List LogRecord) (s : Nat) (h : hasFinished log s = false) :
    ∀ r ∈ recoveryScan log, r.seqNo ≠ some s := by
  intro r hr hs
  simp only [recoveryScan, List.mem_filter] at hr
  rw [hs] at hr
  simp [h] at hr

theorem LogRecord.withSeq_seqNo (r : LogRecord) (s : Nat) (hs : s < 2 ^ 64) :
    (r.withSeq s).seqNo = some s := by
  simp [LogRecord.seqNo, LogRecord.withSeq, parseLogRecordKey_logRecordKeyWithSeq _ _ hs]

theorem finishedRecord_seqNo (s : Nat) (hs : s < 2 ^ 64) : (finishedRecord s).seqNo = some s := by
  simp [LogRecord.seqNo, finishedRecord, parseLogRecordKey_logRecordKeyWithSeq _ _ hs]

theorem Env.Ranges.length1 {env : Env} (h : env.Ranges) (l : List LogRecord) :
    (env.range1 l).length = l.length := (h l).1.length_eq

theorem GoMap.length_values {V : Type} (m : GoMap V) : m.values.length = m.len := by
  simp [GoMap.values, GoMap.len]

theorem WriteBatch.WF.values_nodup {wb : WriteBatch} (h : wb.WF) :
    (wb.pendingWrite.values.map LogRecord.Key).Nodup := by
  have hmap : wb.pendingWrite.values.map LogRecord.Key = wb.pendingWrite.entries.map Prod.fst := by
    simp only [GoMap.values, List.map_map]
    apply List.map_congr_left
    intro e he
    exact (h.2 e he).1
  rw [hmap]
  exact h.1

theorem nodup_keys_of_perm {l1 l2 : List LogRecord} (hp : l1.Perm l2)
    (h : (l2.map LogRecord.Key).Nodup) : (l1.map LogRecord.Key).Nodup :=
  ((hp.map LogRecord.Key).nodup_iff).2 h

/-! ## The invariant of the pending map -/

theorem NewWriteBatch_WF (options : WriteBatchOptions) : (NewWriteBatch options).WF := by
  unfold WriteBatch.WF NewWriteBatch GoMap.empty
  exact ⟨List.nodup_nil, fun e he => absurd he (List.not_mem_nil e)⟩

theorem WriteBatch.WF.set {wb : WriteBatch} (h : wb.WF) (k : Bytes) (r : LogRecord)
    (hkey : r.Key = k) (hne : k ≠ []) (htyp : r.Typ ≠ LogRecordType.LogRecordFinished) :
    (WriteBatch.mk wb.options (wb.pendingWrite.set k r)).WF := by
  unfold WriteBatch.WF GoMap.set
  refine ⟨?_, ?_⟩
  · show ((k, r) :: wb.pendingWrite.entries.filter (fun e => e.1 ≠ k)).map Prod.fst |>.Nodup
    rw [List.map_cons, List.nodup_cons]
    refine ⟨?_, (List.filter_sublist _).map Prod.fst |>.nodup h.1⟩
    intro hin
    obtain ⟨e, he, hek⟩ := List.mem_map.1 hin
    have := (List.mem_filter.1 he).2
    simp only [ne_eq, decide_not, Bool.not_eq_true', decide_eq_false_iff_not] at this
    exact this hek
  · intro e he
    rcases List.mem_cons.1 he with heq | hold
    · subst heq
      exact ⟨hkey, hne, htyp⟩
    · exact h.2 e (List.mem_filter.1 hold).1

theorem WriteBatch.WF.delete {wb : WriteBatch} (h : wb.WF) (k : Bytes) :
    (WriteBatch.mk wb.options (wb.pendingWrite.delete k)).WF := by
  unfold WriteBatch.WF GoMap.delete
  exact ⟨(List.filter_sublist _).map Prod.fst |>.nodup h.1,
    fun e he => h.2 e (List.mem_filter.1 he).1⟩

/-- The method `Put` keeps the invariant of the pending map. -/
theorem Put_WF (wb : WriteBatch) (db : DB) (key value : Bytes) (h : wb.WF) :
    (wb.Put db key value).2.1.WF := by
  unfold WriteBatch.Put
  split
  · exact h
  · next hlen =>
    exact h.set key _ rfl (fun hk => hlen (by rw [hk]; rfl))
        (fun htyp => LogRecordType.noConfusion htyp)

/-- The method `Delete` keeps the invariant of the pending map. -/
theorem Delete_WF (wb : WriteBatch) (db : DB) (key : Bytes) (h : wb.WF) :
    (wb.Delete db key).2.1.WF := by
  unfold WriteBatch.Delete
  split
  · exact h
  · next hlen =>
    dsimp only
    split
    · split
      · exact h.delete key
      · exact h
    · exact h.set key _ rfl (fun hk => hlen (by rw [hk]; rfl))
        (fun htyp => LogRecordType.noConfusion htyp)

/-- The method `Commit` keeps the invariant of the pending map: the map is
left as it was or empty. -/
theorem Commit_pending (wb : WriteBatch) (db : DB) (env : Env) :
    (wb.Commit db env).2.1 = wb ∨
      (wb.Commit db env).2.1 = { wb with pendingWrite := GoMap.empty } := by
  by_cases hzero : wb.pendingWrite.len = 0
  · left
    unfold WriteBatch.Commit
    rw [if_pos hzero]
  · by_cases hgt : (wb.pendingWrite.len : Int) > wb.options.MaxBatchNum
    · left
      unfold WriteBatch.Commit
      rw [if_neg hzero, if_pos hgt]
    · have hmax : (wb.pendingWrite.len : Int) ≤ wb.options.MaxBatchNum := by omega
      rcases happ : appendPending env ((db.seqNo + 1) % 2 ^ 64)
        (env.range1 wb.pendingWrite.values) 0
        { db with seqNo := (db.seqNo + 1) % 2 ^ 64 } GoMap.empty with ⟨db1, res⟩
      cases res with
      | error err =>
        left
        rw [Commit_of_append_error wb db env db1 err hzero hmax happ]
      | ok positions =>
        cases hmark : env.appendResult (env.range1 wb.pendingWrite.values).length with
        | error code =>
          left
          rw [Commit_of_marker_error wb db env db1 positions code hzero hmax happ hmark]
        | ok pos =>
          cases hsync : (if wb.options.SyncWrites && env.activeFile then env.syncResult
            else none) with
          | some code =>
            left
            rw [Commit_of_sync_error wb db env db1 positions pos code hzero hmax happ hmark
              hsync]
          | none =>
            right
            rw [Commit_of_success wb db env db1 positions pos hzero hmax happ hmark hsync]

theorem Commit_WF (wb : WriteBatch) (db : DB) (env : Env) (h : wb.WF) :
    (wb.Commit db env).2.1.WF := by
  rcases Commit_pending wb db env with h1 | h1
  · rw [h1]; exact h
  · rw [h1]
    exact NewWriteBatch_WF wb.options

theorem WriteBatch.WF.values_typ {wb : WriteBatch} (h : wb.WF) :
    ∀ r ∈ wb.pendingWrite.values, r.Typ ≠ LogRecordType.LogRecordFinished := by
  intro r hr
  obtain ⟨e, he, her⟩ := List.mem_map.1 hr
  rw [← her]
  exact (h.2 e he).2.2

theorem WriteBatch.WF.filed {wb : WriteBatch} (h : wb.WF) : wb.Filed :=
  ⟨h.1, fun e he => (h.2 e he).1⟩

theorem WriteBatch.WF.inv {wb : WriteBatch} (h : wb.WF) : wb.Inv :=
  ⟨h.1, fun e he => ⟨(h.2 e he).2.1, by rw [(h.2 e he).1], (h.2 e he).2.2⟩⟩

theorem WriteBatch.Filed.nodup_values {wb : WriteBatch} (h : wb.Filed) :
    (wb.pendingWrite.values.map LogRecord.Key).Nodup := by
  have hmap : wb.pendingWrite.values.map LogRecord.Key = wb.pendingWrite.entries.map Prod.fst := by
    simp only [GoMap.values, List.map_map]
    apply List.map_congr_left
    intro e he
    exact h.2 e he
  rw [hmap]
  exact h.1

theorem WriteBatch.Inv.typ_values {wb : WriteBatch} (h : wb.Inv) :
    ∀ r ∈ wb.pendingWrite.values, r.Typ ≠ LogRecordType.LogRecordFinished := by
  intro r hr
  obtain ⟨e, he, her⟩ := List.mem_map.1 hr
  rw [← her]
  exact (h.2 e he).2.2

theorem NewWriteBatch_Inv (options : WriteBatchOptions) : (NewWriteBatch options).Inv :=
  (NewWriteBatch_WF options).inv

theorem WriteBatch.Inv.set_inv {wb : WriteBatch} (h : wb.Inv) (k : Bytes) (r : LogRecord)
    (hkey : r.Key = k) (hne : k ≠ []) (htyp : r.Typ ≠ LogRecordType.LogRecordFinished) :
    (WriteBatch.mk wb.options (wb.pendingWrite.set k r)).Inv := by
  unfold WriteBatch.Inv GoMap.set
  refine ⟨?_, ?_⟩
  · show ((k, r) :: wb.pendingWrite.entries.filter (fun e => e.1 ≠ k)).map Prod.fst |>.Nodup
    rw [List.map_cons, List.nodup_cons]
    refine ⟨?_, (List.filter_sublist _).map Prod.fst |>.nodup h.1⟩
    intro hin
    obtain ⟨e, he, hek⟩ := List.mem_map.1 hin
    have := (List.mem_filter.1 he).2
    simp only [ne_eq, decide_not, Bool.not_eq_true', decide_eq_false_iff_not] at this
    exact this hek
  · intro e he
    rcases List.mem_cons.1 he with heq | hold
    · subst heq
      exact ⟨hne, by rw [hkey], htyp⟩
    · exact h.2 e (List.mem_filter.1 hold).1

theorem WriteBatch.Inv.delete_inv {wb : WriteBatch} (h : wb.Inv) (k : Bytes) :
    (WriteBatch.mk wb.options (wb.pendingWrite.delete k)).Inv := by
  unfold WriteBatch.Inv GoMap.delete
  exact ⟨(List.filter_sublist _).map Prod.fst |>.nodup h.1,
    fun e he => h.2 e (List.mem_filter.1 he).1⟩

/-- The method `Put` keeps the invariant that holds under caller writes. -/
theorem Put_Inv (wb : WriteBatch) (db : DB) (key value : Bytes) (h : wb.Inv) :
    (wb.Put db key value).2.1.Inv := by
  unfold WriteBatch.Put
  split
  · exact h
  · next hlen =>
    exact h.set_inv key _ rfl (fun hk => hlen (by rw [hk]; rfl))
      (fun htyp => LogRecordType.noConfusion htyp)

/-- The method `Delete` keeps the invariant that holds under caller writes. -/
theorem Delete_Inv (wb : WriteBatch) (db : DB) (key : Bytes) (h : wb.Inv) :
    (wb.Delete db key).2.1.Inv := by
  unfold WriteBatch.Delete
  split
  · exact h
  · next hlen =>
    dsimp only
    split
    · split
      · exact h.delete_inv key
      · exact h
    · exact h.set_inv key _ rfl (fun hk => hlen (by rw [hk]; rfl))
        (fun htyp => LogRecordType.noConfusion htyp)

/-- The method `Commit` keeps the invariant that holds under caller writes. -/
theorem Commit_Inv (wb : WriteBatch) (db : DB) (env : Env) (h : wb.Inv) :
    (wb.Commit db env).2.1.Inv := by
  rcases Commit_pending wb db env with h1 | h1
  · rw [h1]; exact h
  · rw [h1]
    exact NewWriteBatch_Inv wb.options

/-- A write by the caller to a buffer it passed keeps the invariant: the map
keys, the lengths of the record keys and the types do not change. -/
theorem callerWrite_Inv (wb : WriteBatch) (k key value : Bytes) (h : wb.Inv) :
    (wb.callerWrite k key value).Inv := by
  unfold WriteBatch.Inv WriteBatch.callerWrite
  refine ⟨?_, ?_⟩
  · have hfst : (wb.pendingWrite.entries.map (fun e =>
        if e.1 = k ∧ key.length = e.2.Key.length ∧ value.length = e.2.Value.length then
          (e.1, ({ Key := key, Value := value, Typ := e.2.Typ } : LogRecord))
        else e)).map Prod.fst = wb.pendingWrite.entries.map Prod.fst := by
      rw [List.map_map]
      apply List.map_congr_left
      intro e _
      simp only [Function.comp]
      split <;> rfl
    show List.Nodup (List.map Prod.fst (List.map _ wb.pendingWrite.entries))
    rw [hfst]
    exact h.1
  · intro e he
    obtain ⟨e0, he0, hmap⟩ := List.mem_map.1 he
    obtain ⟨hne, hlen, htyp⟩ := h.2 e0 he0
    by_cases hc : e0.1 = k ∧ key.length = e0.2.Key.length ∧ value.length = e0.2.Value.length
    · rw [if_pos hc] at hmap
      rw [← hmap]
      exact ⟨hne, by rw [← hlen]; exact hc.2.1, htyp⟩
    · rw [if_neg hc] at hmap
      rw [← hmap]
      exact ⟨hne, hlen, htyp⟩

/-! ## The invariant of the log -/

theorem Put_db (wb : WriteBatch) (db : DB) (key value : Bytes) :
    (wb.Put db key value).2.2 = db := by
  unfold WriteBatch.Put
  split <;> rfl

theorem Delete_db (wb : WriteBatch) (db : DB) (key : Bytes) :
    (wb.Delete db key).2.2 = db := by
  unfold WriteBatch.Delete
  split
  · rfl
  · dsimp only
    split
    · split <;> rfl
    · rfl

/-- A log within the counter has no completion marker for the next sequence
number, as long as the counter does not wrap. -/
theorem DB.LogBounded.hasFinished_next {db : DB} (h : db.LogBounded)
    (hs : db.seqNo + 1 < 2 ^ 64) :
    hasFinished db.log ((db.seqNo + 1) % 2 ^ 64) = false := by
  rw [Nat.mod_eq_of_lt hs]
  simp only [hasFinished, List.any_eq_false, decide_eq_true_eq]
  rintro r hr ⟨-, hseq⟩
  have := h r hr _ hseq
  omega

/-- Whatever its outcome, `Commit` leaves the engine as it was, or leaves the
counter at the number drawn and the log grown by records that all decode to
that number. -/
theorem Commit_log_shape (wb : WriteBatch) (db : DB) (env : Env) :
    (wb.Commit db env).2.2 = db ∨
    ((wb.Commit db env).2.2.seqNo = (db.seqNo + 1) % 2 ^ 64 ∧
      ∃ extra, (wb.Commit db env).2.2.log = db.log ++ extra ∧
        ∀ r ∈ extra, r.seqNo = some ((db.seqNo + 1) % 2 ^ 64)) := by
  have hs : (db.seqNo + 1) % 2 ^ 64 < 2 ^ 64 := Nat.mod_lt _ (by norm_num)
  have htag : ∀ l : List LogRecord, ∀ r ∈ l.map (fun r => r.withSeq ((db.seqNo + 1) % 2 ^ 64)),
      r.seqNo = some ((db.seqNo + 1) % 2 ^ 64) := by
    intro l r hr
    obtain ⟨x, -, rfl⟩ := List.mem_map.1 hr
    exact LogRecord.withSeq_seqNo x _ hs
  by_cases hzero : wb.pendingWrite.len = 0
  · left
    unfold WriteBatch.Commit
    rw [if_pos hzero]
  · by_cases hgt : (wb.pendingWrite.len : Int) > wb.options.MaxBatchNum
    · left
      unfold WriteBatch.Commit
      rw [if_neg hzero, if_pos hgt]
    · right
      have hmax : (wb.pendingWrite.len : Int) ≤ wb.options.MaxBatchNum := by omega
      rcases happ : appendPending env ((db.seqNo + 1) % 2 ^ 64)
        (env.range1 wb.pendingWrite.values) 0
        { db with seqNo := (db.seqNo + 1) % 2 ^ 64 } GoMap.empty with ⟨db1, res⟩
      cases res with
      | error err =>
        obtain ⟨j, code, -, -, -, hdb1⟩ := appendPending_error env _ _ _ _ _ _ _ happ
        rw [Commit_of_append_error wb db env db1 err hzero hmax happ, hdb1]
        exact ⟨rfl, _, rfl, htag _⟩
      | ok positions =>
        obtain ⟨hdb1, -⟩ := appendPending_ok_log env _ _ _ _ _ _ _ happ
        cases hmark : env.appendResult (env.range1 wb.pendingWrite.values).length with
        | error code =>
          rw [Commit_of_marker_error wb db env db1 positions code hzero hmax happ hmark, hdb1]
          exact ⟨rfl, _, rfl, htag _⟩
        | ok pos =>
          have hall : ∀ r ∈ (env.range1 wb.pendingWrite.values).map
                (fun r => r.withSeq ((db.seqNo + 1) % 2 ^ 64))
              ++ [finishedRecord ((db.seqNo + 1) % 2 ^ 64)],
              r.seqNo = some ((db.seqNo + 1) % 2 ^ 64) := by
            intro r hr
            rcases List.mem_append.1 hr with h1 | h2
            · exact htag _ r h1
            · rw [List.mem_singleton.1 h2]
              exact finishedRecord_seqNo _ hs
          cases hsync : (if wb.options.SyncWrites && env.activeFile then env.syncResult
            else none) with
          | some code =>
            rw [Commit_of_sync_error wb db env db1 positions pos code hzero hmax happ hmark
              hsync, hdb1]
            exact ⟨rfl, _, List.append_assoc _ _ _, hall⟩
          | none =>
            rw [Commit_of_success wb db env db1 positions pos hzero hmax happ hmark hsync, hdb1]
            exact ⟨rfl, _, List.append_assoc _ _ _, hall⟩

/-- The method `Commit` keeps the log within the counter, as long as the
counter does not wrap. -/
theorem Commit_LogBounded (wb : WriteBatch) (db : DB) (env : Env) (h : db.LogBounded)
    (hs : db.seqNo + 1 < 2 ^ 64) : (wb.Commit db env).2.2.LogBounded := by
  rcases Commit_log_shape wb db env with hsame | ⟨hseq, extra, hlog, hextra⟩
  · rw [hsame]; exact h
  · intro r hr s hrs
    rw [hseq, Nat.mod_eq_of_lt hs]
    rw [hlog] at hr
    rcases List.mem_append.1 hr with hold | hnew
    · have := h r hold s hrs
      omega
    · have h2 := hextra r hnew
      rw [hrs, Nat.mod_eq_of_lt hs] at h2
      have := Option.some.inj h2
      omega

theorem freshDB_LogBounded : freshDB.LogBounded := by
  intro r hr
  cases hr

/-! ## Lemmas on the example states -/

theorem envOk_Ranges : envOk.Ranges :=
  fun l => ⟨List.Perm.refl l, List.reverse_perm l⟩

theorem envFailAt_Ranges (n : Nat) : (envFailAt n).Ranges :=
  fun l => ⟨List.Perm.refl l, List.reverse_perm l⟩

theorem envSyncFail_Ranges : envSyncFail.Ranges :=
  fun l => ⟨List.Perm.refl l, List.reverse_perm l⟩

theorem twoPuts_WF : twoPuts.WF := by
  unfold WriteBatch.WF
  decide

/-! ## The key codec -/

/-- C1: for every key `k1` (non-empty or not) and every 64-bit sequence
number `s1`, `parseLogRecordKey (logRecordKeyWithSeq k1 s1)` returns exactly
`(k1, s1)`, without panicking; and the encoding is unambiguous: two encoded
keys are equal only if the keys and the sequence numbers are, whatever bytes
the keys contain. -/
theorem logRecordKey_roundtrip (k1 k2 : Bytes) (s1 s2 : Nat) (h1 : s1 < 2 ^ 64)
    (h2 : s2 < 2 ^ 64) :
    parseLogRecordKey (logRecordKeyWithSeq k1 s1) = some (k1, s1) ∧
    (logRecordKeyWithSeq k1 s1 = logRecordKeyWithSeq k2 s2 → k1 = k2 ∧ s1 = s2) := by
  refine ⟨parseLogRecordKey_logRecordKeyWithSeq k1 s1 h1, fun heq => ?_⟩
  have e1 := parseLogRecordKey_logRecordKeyWithSeq k1 s1 h1
  have e2 := parseLogRecordKey_logRecordKeyWithSeq k2 s2 h2
  rw [heq, e2] at e1
  have e3 := Option.some.inj e1
  exact ⟨(congrArg Prod.fst e3).symm, (congrArg Prod.snd e3).symm⟩

/-- Witness of C1 at the key `"txn-fix"` and the largest sequence number. -/
theorem logRecordKey_roundtrip_witness :
    parseLogRecordKey (logRecordKeyWithSeq txnFixKey (2 ^ 64 - 1))
      = some (txnFixKey, 2 ^ 64 - 1) :=
  (logRecordKey_roundtrip txnFixKey [0x61] (2 ^ 64 - 1) 300 (by decide) (by decide)).1

/-! ## Put and Delete -/

/-- C7: `Put` and `Delete` with an empty key return `ErrKeyIsEmpty` and leave
the batch (its pending map) and the engine (index, log, sequence counter) as
they were; with a non-empty key both return no error. -/
theorem Put_Delete_empty_key (wb : WriteBatch) (db : DB) (key value : Bytes)
    (hkey : key ≠ []) :
    wb.Put db [] value = (some Error.ErrKeyIsEmpty, wb, db) ∧
    wb.Delete db [] = (some Error.ErrKeyIsEmpty, wb, db) ∧
    (wb.Put db key value).1 = none ∧
    (wb.Delete db key).1 = none := by
  have hlen : ¬ key.length = 0 := fun h => hkey (List.length_eq_zero.1 h)
  refine ⟨rfl, rfl, ?_, ?_⟩
  · simp [WriteBatch.Put, hlen]
  · unfold WriteBatch.Delete
    rw [if_neg hlen]
    dsimp only
    split
    · split <;> rfl
    · rfl

/-- C8: for a non-empty key `k`, `Put(k, v2)` sets the pending entry of `k` to
`{k, v2, Normal}` and leaves exactly one entry for `k`, whatever was pending
for `k` before (nothing, a value or a tombstone); in particular after
`Put(k, v1); Put(k, v2)`. -/
theorem Put_last_writer_wins (wb : WriteBatch) (db : DB) (k v1 v2 : Bytes) (hk : k ≠ []) :
    (wb.Put db k v2).1 = none ∧
    (wb.Put db k v2).2.1.pendingWrite.get k
      = some { Key := k, Value := v2, Typ := LogRecordType.LogRecordNormal } ∧
    ((wb.Put db k v2).2.1.pendingWrite.entries.filter (fun e => e.1 = k)).length = 1 ∧
    (((wb.Put db k v1).2.1.Put (wb.Put db k v1).2.2 k v2).2.1.pendingWrite.get k
      = some { Key := k, Value := v2, Typ := LogRecordType.LogRecordNormal }) ∧
    (((wb.Put db k v1).2.1.Put (wb.Put db k v1).2.2 k v2).2.1.pendingWrite.entries.filter
      (fun e => e.1 = k)).length = 1 := by
  have hlen : ¬ k.length = 0 := fun h => hk (List.length_eq_zero.1 h)
  have hput : ∀ (w : WriteBatch) (d : DB) (v : Bytes), w.Put d k v
      = (none, WriteBatch.mk w.options (w.pendingWrite.set k
          { Key := k, Value := v, Typ := LogRecordType.LogRecordNormal }), d) := by
    intro w d v
    simp [WriteBatch.Put, hlen, LogRecordType.zero]
  rw [hput wb db v1, hput wb db v2, hput]
  exact ⟨rfl, GoMap.get_set_self _ _ _, GoMap.count_set _ _ _, GoMap.get_set_self _ _ _,
    GoMap.count_set _ _ _⟩

/-- C9: for a non-empty key `k` with no entry in the index, `Delete(k)`
succeeds and leaves the pending map as it was with every entry for `k`
erased and no tombstone recorded (so a `Put(k, v)` before it is cancelled);
when `k` was not pending the batch is unchanged. The engine is unchanged. -/
theorem Delete_absent_key (wb : WriteBatch) (db : DB) (k v : Bytes) (hk : k ≠ [])
    (hidx : db.index.Get k = none) :
    (wb.Delete db k).1 = none ∧
    (wb.Delete db k).2.1.pendingWrite.entries
      = wb.pendingWrite.entries.filter (fun e => e.1 ≠ k) ∧
    (wb.Delete db k).2.1.pendingWrite.get k = none ∧
    (∀ k2, k2 ≠ k → (wb.Delete db k).2.1.pendingWrite.get k2 = wb.pendingWrite.get k2) ∧
    (wb.pendingWrite.get k = none → (wb.Delete db k).2.1 = wb) ∧
    (wb.Delete db k).2.2 = db ∧
    ((wb.Put db k v).2.1.Delete (wb.Put db k v).2.2 k).2.1.pendingWrite.get k = none := by
  have hlen : ¬ k.length = 0 := fun h => hk (List.length_eq_zero.1 h)
  have hdel : ∀ w : WriteBatch, w.Delete db k
      = (none, { w with pendingWrite := w.pendingWrite.delete k }, db) := by
    intro w
    unfold WriteBatch.Delete
    rw [if_neg hlen]
    dsimp only
    rw [if_pos hidx]
    split
    · rfl
    · next hnone =>
      have hget : w.pendingWrite.get k = none := by
        simpa using hnone
      rw [GoMap.delete_of_get_none _ _ hget]
  have hput : (wb.Put db k v).2.2 = db := by
    simp [WriteBatch.Put, hlen]
  rw [hput, hdel wb, hdel (wb.Put db k v).2.1]
  refine ⟨rfl, rfl, GoMap.get_delete_self _ _, fun k2 h2 => GoMap.get_delete_ne _ _ _ h2,
    fun hnone => ?_, rfl, GoMap.get_delete_self _ _⟩
  show ({ wb with pendingWrite := wb.pendingWrite.delete k } : WriteBatch) = wb
  rw [GoMap.delete_of_get_none _ _ hnone]

/-- C10: for a non-empty key `k` that has an entry in the index, `Delete(k)`
succeeds and leaves the pending entry `{k, no value, Deleted}` for `k`, the
only entry for `k`, whatever was pending for `k` before. -/
theorem Delete_indexed_key (wb : WriteBatch) (db : DB) (k : Bytes) (pos : LogRecordPos)
    (hk : k ≠ []) (hidx : db.index.Get k = some pos) :
    (wb.Delete db k).1 = none ∧
    (wb.Delete db k).2.1.pendingWrite.get k
      = some { Key := k, Value := [], Typ := LogRecordType.LogRecordDeleted } ∧
    ((wb.Delete db k).2.1.pendingWrite.entries.filter (fun e => e.1 = k)).length = 1 := by
  have hlen : ¬ k.length = 0 := fun h => hk (List.length_eq_zero.1 h)
  have hdel : wb.Delete db k
      = (none, WriteBatch.mk wb.options (wb.pendingWrite.set k
          { Key := k, Value := [], Typ := LogRecordType.LogRecordDeleted }), db) := by
    unfold WriteBatch.Delete
    rw [if_neg hlen]
    dsimp only
    rw [if_neg (by rw [hidx]; simp)]
  rw [hdel]
  exact ⟨rfl, GoMap.get_set_self _ _ _, GoMap.count_set _ _ _⟩

/-! ## Commit -/

/-- C2, as amended: take a batch with `M` pending entries,
`1 ≤ M ≤ MaxBatchNum`, none of type `LogRecordFinished` (as in every batch
built by `Put` and `Delete`, see `Put_Inv`, `Delete_Inv`, `Commit_Inv` and
`callerWrite_Inv`), an engine whose log has no completion marker yet for the
sequence number the call draws (as long as the counter has not wrapped, see
`DB.LogBounded.hasFinished_next`), and a log store whose appends `0, ..., N - 1` succeed and whose append `N` fails,
`N ≤ M` (the appends `0, ..., M - 1` are those of the pending records, the
append `M` is that of the completion marker). Then `Commit` returns that
error, and afterwards the index and the batch (its pending map) are as
before, the counter has the number drawn, the log has grown by the `N`
records appended before the failure, and it holds no completion marker for
the number drawn, so the recovery scan yields no record of that number. -/
theorem Commit_append_failure (wb : WriteBatch) (db : DB) (env : Env) (N code : Nat)
    (hM : 1 ≤ wb.pendingWrite.len)
    (hmax : (wb.pendingWrite.len : Int) ≤ wb.options.MaxBatchNum)
    (hranges : env.Ranges)
    (hN : N ≤ wb.pendingWrite.len)
    (hok : ∀ i, i < N → ∃ pos, env.appendResult i = .ok pos)
    (hfail : env.appendResult N = .error code)
    (htyp : ∀ r ∈ wb.pendingWrite.values, r.Typ ≠ LogRecordType.LogRecordFinished)
    (hlog : hasFinished db.log ((db.seqNo + 1) % 2 ^ 64) = false) :
    (wb.Commit db env).1 = some (Error.store code) ∧
    (wb.Commit db env).2.2.index = db.index ∧
    (wb.Commit db env).2.1 = wb ∧
    (wb.Commit db env).2.2.seqNo = (db.seqNo + 1) % 2 ^ 64 ∧
    (wb.Commit db env).2.2.log
      = db.log ++ ((env.range1 wb.pendingWrite.values).take N).map
          (fun r => r.withSeq ((db.seqNo + 1) % 2 ^ 64)) ∧
    hasFinished (wb.Commit db env).2.2.log ((db.seqNo + 1) % 2 ^ 64) = false ∧
    ∀ r ∈ recoveryScan (wb.Commit db env).2.2.log, r.seqNo ≠ some ((db.seqNo + 1) % 2 ^ 64) := by
  have hne : wb.pendingWrite.len ≠ 0 := by omega
  have hlen : (env.range1 wb.pendingWrite.values).length = wb.pendingWrite.len := by
    rw [hranges.length1, GoMap.length_values]
  have hvis : ∀ r ∈ (env.range1 wb.pendingWrite.values).take N,
      r.Typ ≠ LogRecordType.LogRecordFinished := fun r hr =>
    htyp r (((hranges wb.pendingWrite.values).1.mem_iff).1 (List.mem_of_mem_take hr))
  have hcommit : wb.Commit db env = (some (Error.store code), wb,
      { db with
        seqNo := (db.seqNo + 1) % 2 ^ 64,
        log := db.log ++ ((env.range1 wb.pendingWrite.values).take N).map
          (fun r => r.withSeq ((db.seqNo + 1) % 2 ^ 64)) }) := by
    rcases Nat.lt_or_ge N (env.range1 wb.pendingWrite.values).length with hlt | hge
    · have happ := appendPending_fail env ((db.seqNo + 1) % 2 ^ 64)
        (env.range1 wb.pendingWrite.values) 0 { db with seqNo := (db.seqNo + 1) % 2 ^ 64 }
        GoMap.empty N code hlt (fun i hi => by simpa using hok i hi) (by simpa using hfail)
      rw [Commit_of_append_error wb db env _ _ hne hmax happ]
    · have hNeq : N = (env.range1 wb.pendingWrite.values).length := by omega
      obtain ⟨positions1, happ⟩ := appendPending_succeeds env ((db.seqNo + 1) % 2 ^ 64)
        (env.range1 wb.pendingWrite.values) 0 { db with seqNo := (db.seqNo + 1) % 2 ^ 64 }
        GoMap.empty (fun i hi => by simpa using hok i (by omega))
      rw [Commit_of_marker_error wb db env _ positions1 code hne hmax happ (by rw [← hNeq]; exact hfail)]
      rw [hNeq, List.take_length]
  have hfin : hasFinished (db.log ++ ((env.range1 wb.pendingWrite.values).take N).map
      (fun r => r.withSeq ((db.seqNo + 1) % 2 ^ 64))) ((db.seqNo + 1) % 2 ^ 64) = false := by
    rw [hasFinished_append, hlog, hasFinished_withSeq _ _ _ hvis]
    rfl
  rw [hcommit]
  exact ⟨rfl, rfl, rfl, rfl, rfl, hfin, recoveryScan_seqNo _ _ hfin⟩

/-- C3, as amended: take a `Commit` that succeeds on a non-empty pending map
in which every entry is filed under the key its record carries (as long as no
caller has written to a key buffer it passed to `Put` or `Delete`, see
`Put_WF`, `Delete_WF` and `Commit_WF`), the two loops visiting the map in any
orders. Afterwards,
for every pending entry of key `k` and type `LogRecordNormal` the index maps
`k` to the position the log store returned for the append of that very
record; for every pending entry of key `k` and type `LogRecordDeleted` the
index has no entry for `k`; every key that was not pending has the index
entry (or absence) it had; and the pending map is empty. -/
theorem Commit_success_index (wb : WriteBatch) (db : DB) (env : Env)
    (hne : wb.pendingWrite.len ≠ 0) (hfiled : wb.Filed) (hranges : env.Ranges)
    (hsucc : (wb.Commit db env).1 = none) :
    (∀ k r, (k, r) ∈ wb.pendingWrite.entries → r.Typ = LogRecordType.LogRecordNormal →
      ∃ i pos, (env.range1 wb.pendingWrite.values)[i]? = some r ∧
        env.appendResult i = .ok pos ∧
        (wb.Commit db env).2.2.index.Get k = some pos) ∧
    (∀ k r, (k, r) ∈ wb.pendingWrite.entries → r.Typ = LogRecordType.LogRecordDeleted →
      (wb.Commit db env).2.2.index.Get k = none) ∧
    (∀ k, wb.pendingWrite.get k = none →
      (wb.Commit db env).2.2.index.Get k = db.index.Get k) ∧
    (wb.Commit db env).2.1.pendingWrite = GoMap.empty := by
  obtain ⟨hmax, db1, positions, pos, happ, hmark, hsync⟩ :=
    Commit_success_inv wb db env hne hsucc
  have hnd := hfiled.nodup_values
  have hnd1 := nodup_keys_of_perm (hranges wb.pendingWrite.values).1 hnd
  have hnd2 := nodup_keys_of_perm (hranges wb.pendingWrite.values).2 hnd
  obtain ⟨hdb1, -⟩ := appendPending_ok_log env _ _ _ _ _ _ _ happ
  obtain ⟨hpos, -⟩ := appendPending_ok_positions env _ _ _ _ _ _ _ hnd1 happ
  have hidx1 : db1.index = db.index := by rw [hdb1]
  rw [Commit_of_success wb db env db1 positions pos hne hmax happ hmark hsync]
  have hmem : ∀ k r, (k, r) ∈ wb.pendingWrite.entries →
      r ∈ wb.pendingWrite.values ∧ r.Key = k := fun k r he =>
    ⟨List.mem_map.2 ⟨(k, r), he, rfl⟩, hfiled.2 (k, r) he⟩
  refine ⟨?_, ?_, ?_, rfl⟩
  · intro k r he htyp
    obtain ⟨hrv, hkey⟩ := hmem k r he
    have hr1 : r ∈ env.range1 wb.pendingWrite.values :=
      ((hranges wb.pendingWrite.values).1.mem_iff).2 hrv
    have hr2 : r ∈ env.range2 wb.pendingWrite.values :=
      ((hranges wb.pendingWrite.values).2.mem_iff).2 hrv
    obtain ⟨i, hi, hget⟩ := List.getElem_of_mem hr1
    obtain ⟨p, hp, hpget⟩ := hpos i hi
    refine ⟨i, p, ?_, by simpa using hp, ?_⟩
    · rw [List.getElem?_eq_getElem hi, hget]
    · show (applyPending positions (env.range2 wb.pendingWrite.values) db1.index).Get k = some p
      rw [applyPending_Get positions _ _ _ hnd2, ← hkey, find_key_mem _ r hnd2 hr2]
      simp only [htyp, if_true]
      rw [← hpget, hget]
  · intro k r he htyp
    obtain ⟨hrv, hkey⟩ := hmem k r he
    have hr2 : r ∈ env.range2 wb.pendingWrite.values :=
      ((hranges wb.pendingWrite.values).2.mem_iff).2 hrv
    show (applyPending positions (env.range2 wb.pendingWrite.values) db1.index).Get k = none
    rw [applyPending_Get positions _ _ _ hnd2, ← hkey, find_key_mem _ r hnd2 hr2]
    simp [htyp]
  · intro k hk
    show (applyPending positions (env.range2 wb.pendingWrite.values) db1.index).Get k
      = db.index.Get k
    have hnot : k ∉ (env.range2 wb.pendingWrite.values).map LogRecord.Key := by
      intro hin
      obtain ⟨r, hr, hrk⟩ := List.mem_map.1 hin
      have hrv : r ∈ wb.pendingWrite.values :=
        ((hranges wb.pendingWrite.values).2.mem_iff).1 hr
      obtain ⟨e, he, her⟩ := List.mem_map.1 hrv
      have hek := hfiled.2 e he
      exact (GoMap.get_eq_none_iff _ _).1 hk e he (by rw [← hek, her, hrk])
    rw [applyPending_Get positions _ _ _ hnd2, find_key_none _ _ hnot, hidx1]

/-- C4: a `Commit` that succeeds on a pending map with `M ≥ 1` entries leaves
the log as it was followed by `M + 1` new records: for each pending record,
in the order the first loop visits them, the record with the key
`logRecordKeyWithSeq originalKey seqNo` and the value and type of the
pending record, and last the completion marker, of type `LogRecordFinished`,
key `logRecordKeyWithSeq txnFixKey seqNo` and empty value; all of them decode
to the same sequence number, the one the counter now holds. -/
theorem Commit_success_log (wb : WriteBatch) (db : DB) (env : Env)
    (hne : wb.pendingWrite.len ≠ 0) (hranges : env.Ranges)
    (hsucc : (wb.Commit db env).1 = none) :
    (wb.Commit db env).2.2.log
      = db.log ++ (env.range1 wb.pendingWrite.values).map
          (fun r => r.withSeq ((db.seqNo + 1) % 2 ^ 64))
        ++ [finishedRecord ((db.seqNo + 1) % 2 ^ 64)] ∧
    ((env.range1 wb.pendingWrite.values).map
        (fun r => r.withSeq ((db.seqNo + 1) % 2 ^ 64))).Perm
      (wb.pendingWrite.values.map (fun r => r.withSeq ((db.seqNo + 1) % 2 ^ 64))) ∧
    ((env.range1 wb.pendingWrite.values).map
        (fun r => r.withSeq ((db.seqNo + 1) % 2 ^ 64))
      ++ [finishedRecord ((db.seqNo + 1) % 2 ^ 64)]).length = wb.pendingWrite.len + 1 ∧
    (∀ r ∈ (env.range1 wb.pendingWrite.values).map
          (fun r => r.withSeq ((db.seqNo + 1) % 2 ^ 64))
        ++ [finishedRecord ((db.seqNo + 1) % 2 ^ 64)],
      r.seqNo = some ((db.seqNo + 1) % 2 ^ 64)) ∧
    (wb.Commit db env).2.2.seqNo = (db.seqNo + 1) % 2 ^ 64 := by
  obtain ⟨hmax, db1, positions, pos, happ, hmark, hsync⟩ :=
    Commit_success_inv wb db env hne hsucc
  obtain ⟨hdb1, -⟩ := appendPending_ok_log env _ _ _ _ _ _ _ happ
  have hs : (db.seqNo + 1) % 2 ^ 64 < 2 ^ 64 := Nat.mod_lt _ (by norm_num)
  rw [Commit_of_success wb db env db1 positions pos hne hmax happ hmark hsync]
  refine ⟨by rw [hdb1], (hranges wb.pendingWrite.values).1.map _, ?_, ?_, by rw [hdb1]⟩
  · rw [List.length_append, List.length_map, hranges.length1, GoMap.length_values]
    rfl
  · intro r hr
    rcases List.mem_append.1 hr with h1 | h2
    · obtain ⟨x, -, rfl⟩ := List.mem_map.1 h1
      exact LogRecord.withSeq_seqNo x _ hs
    · rw [List.mem_singleton.1 h2]
      exact finishedRecord_seqNo _ hs

/-- C5: take a batch with `SyncWrites` set and `1 ≤ M ≤ MaxBatchNum` pending
entries, all of whose appends (records and completion marker) succeed and
whose sync fails. Then `Commit` returns the sync error and leaves the index
and the batch (its pending map) as before, while the log now holds all the
records of the batch followed by its completion marker. -/
theorem Commit_sync_failure (wb : WriteBatch) (db : DB) (env : Env) (code : Nat)
    (hM : 1 ≤ wb.pendingWrite.len)
    (hmax : (wb.pendingWrite.len : Int) ≤ wb.options.MaxBatchNum)
    (hranges : env.Ranges)
    (hsyncWrites : wb.options.SyncWrites = true)
    (hactive : env.activeFile = true)
    (hok : ∀ i, i ≤ wb.pendingWrite.len → ∃ pos, env.appendResult i = .ok pos)
    (hfail : env.syncResult = some code) :
    (wb.Commit db env).1 = some (Error.store code) ∧
    (wb.Commit db env).2.2.index = db.index ∧
    (wb.Commit db env).2.1 = wb ∧
    (wb.Commit db env).2.2.log
      = db.log ++ (env.range1 wb.pendingWrite.values).map
          (fun r => r.withSeq ((db.seqNo + 1) % 2 ^ 64))
        ++ [finishedRecord ((db.seqNo + 1) % 2 ^ 64)] ∧
    hasFinished (wb.Commit db env).2.2.log ((db.seqNo + 1) % 2 ^ 64) = true := by
  have hne : wb.pendingWrite.len ≠ 0 := by omega
  have hlen : (env.range1 wb.pendingWrite.values).length = wb.pendingWrite.len := by
    rw [hranges.length1, GoMap.length_values]
  have hs : (db.seqNo + 1) % 2 ^ 64 < 2 ^ 64 := Nat.mod_lt _ (by norm_num)
  obtain ⟨positions1, happ⟩ := appendPending_succeeds env ((db.seqNo + 1) % 2 ^ 64)
    (env.range1 wb.pendingWrite.values) 0 { db with seqNo := (db.seqNo + 1) % 2 ^ 64 }
    GoMap.empty (fun i hi => by simpa using hok i (by omega))
  obtain ⟨pos, hmark⟩ := hok (env.range1 wb.pendingWrite.values).length (by omega)
  have hsync : (if wb.options.SyncWrites && env.activeFile then env.syncResult else none)
      = some code := by
    rw [hsyncWrites, hactive, hfail]
    rfl
  rw [Commit_of_sync_error wb db env _ positions1 pos code hne hmax happ hmark hsync]
  refine ⟨rfl, rfl, rfl, rfl, ?_⟩
  show hasFinished ((db.log ++ (env.range1 wb.pendingWrite.values).map
      (fun r => r.withSeq ((db.seqNo + 1) % 2 ^ 64)))
    ++ [finishedRecord ((db.seqNo + 1) % 2 ^ 64)]) ((db.seqNo + 1) % 2 ^ 64) = true
  rw [hasFinished_append]
  have hmarker : hasFinished [finishedRecord ((db.seqNo + 1) % 2 ^ 64)]
      ((db.seqNo + 1) % 2 ^ 64) = true := by
    simp only [hasFinished, List.any_cons, List.any_nil, Bool.or_false, decide_eq_true_eq]
    exact ⟨rfl, finishedRecord_seqNo _ hs⟩
  rw [hmarker, Bool.or_true]

/-- C6: `Commit` returns `ErrExceedMaxBatchNum` if and only if the pending map
is non-empty and has more entries than `MaxBatchNum` (as many entries as
`MaxBatchNum` are accepted); and when it returns that error the batch and the
engine are as before: nothing is appended to the log, the sequence counter is
not advanced, the index and the pending map are unchanged. -/
theorem Commit_exceed_iff (wb : WriteBatch) (db : DB) (env : Env) :
    ((wb.Commit db env).1 = some Error.ErrExceedMaxBatchNum ↔
      wb.pendingWrite.len ≠ 0 ∧ (wb.pendingWrite.len : Int) > wb.options.MaxBatchNum) ∧
    ((wb.Commit db env).1 = some Error.ErrExceedMaxBatchNum →
      (wb.Commit db env).2.1 = wb ∧ (wb.Commit db env).2.2 = db) := by
  by_cases hzero : wb.pendingWrite.len = 0
  · have hc : wb.Commit db env = (none, wb, db) := by
      unfold WriteBatch.Commit
      rw [if_pos hzero]
    rw [hc]
    exact ⟨⟨fun h => (by cases h), fun h => absurd hzero h.1⟩, fun h => (by cases h)⟩
  · by_cases hgt : (wb.pendingWrite.len : Int) > wb.options.MaxBatchNum
    · have hc : wb.Commit db env = (some Error.ErrExceedMaxBatchNum, wb, db) := by
        unfold WriteBatch.Commit
        rw [if_neg hzero, if_pos hgt]
      rw [hc]
      exact ⟨⟨fun _ => ⟨hzero, hgt⟩, fun _ => rfl⟩, fun _ => ⟨rfl, rfl⟩⟩
    · have hmax : (wb.pendingWrite.len : Int) ≤ wb.options.MaxBatchNum := by omega
      have hno : (wb.Commit db env).1 ≠ some Error.ErrExceedMaxBatchNum := by
        rcases happ : appendPending env ((db.seqNo + 1) % 2 ^ 64)
          (env.range1 wb.pendingWrite.values) 0
          { db with seqNo := (db.seqNo + 1) % 2 ^ 64 } GoMap.empty with ⟨db1, res⟩
        cases res with
        | error err =>
          obtain ⟨j, code, -, -, herr, -⟩ := appendPending_error env _ _ _ _ _ _ _ happ
          rw [Commit_of_append_error wb db env db1 err hzero hmax happ, herr]
          intro h
          cases h
        | ok positions =>
          cases hmark : env.appendResult (env.range1 wb.pendingWrite.values).length with
          | error code =>
            rw [Commit_of_marker_error wb db env db1 positions code hzero hmax happ hmark]
            intro h
            cases h
          | ok pos =>
            cases hsync : (if wb.options.SyncWrites && env.activeFile then env.syncResult
              else none) with
            | some code =>
              rw [Commit_of_sync_error wb db env db1 positions pos code hzero hmax happ hmark
                hsync]
              intro h
              cases h
            | none =>
              rw [Commit_of_success wb db env db1 positions pos hzero hmax happ hmark hsync]
              intro h
              cases h
      exact ⟨⟨fun h => absurd h hno, fun h => absurd h.2 hgt⟩, fun h => absurd h hno⟩

/-! ## The theorems at the example states -/

/-- Counterexample to C2 as stated: on an engine whose counter has wrapped and
holds `2 ^ 64 - 1`, with the completion marker tagged 0 in its log, the
batch `twoPuts` commits with its second append failing. `Commit` returns the
error and draws the number 0 again; the log then holds a completion marker
tagged 0 and the orphaned record of `"b"` tagged 0, which the recovery scan
keeps. -/
theorem Commit_failure_after_wrap :
    1 ≤ twoPuts.pendingWrite.len ∧
    (twoPuts.pendingWrite.len : Int) ≤ twoPuts.options.MaxBatchNum ∧
    (envFailAt 1).appendResult 0 = .ok ⟨0, 0⟩ ∧
    (envFailAt 1).appendResult 1 = .error 5 ∧
    (twoPuts.Commit wrappedDB (envFailAt 1)).1 = some (Error.store 5) ∧
    (twoPuts.Commit wrappedDB (envFailAt 1)).2.2.seqNo = 0 ∧
    (twoPuts.Commit wrappedDB (envFailAt 1)).2.2.log
      = [finishedRecord 0, recordB.withSeq 0] ∧
    hasFinished (twoPuts.Commit wrappedDB (envFailAt 1)).2.2.log 0 = true ∧
    (recordB.withSeq 0).seqNo = some 0 ∧
    recordB.withSeq 0 ∈ recoveryScan (twoPuts.Commit wrappedDB (envFailAt 1)).2.2.log := by
  have hlog : (twoPuts.Commit wrappedDB (envFailAt 1)).2.2.log
      = [finishedRecord 0, recordB.withSeq 0] := rfl
  have hfin : (finishedRecord 0).seqNo = some 0 := finishedRecord_seqNo 0 (by decide)
  have hrec : (recordB.withSeq 0).seqNo = some 0 := LogRecord.withSeq_seqNo _ 0 (by decide)
  have hhas : hasFinished [finishedRecord 0, recordB.withSeq 0] 0 = true := by
    simp only [hasFinished, List.any_cons, hfin, Bool.or_eq_true, decide_eq_true_eq]
    exact Or.inl ⟨rfl, trivial⟩
  refine ⟨by decide, by decide, rfl, rfl, by decide, by decide, hlog, ?_, hrec, ?_⟩
  · rw [hlog]; exact hhas
  · rw [hlog]
    simp only [recoveryScan, List.mem_filter, hrec, hhas, and_true]
    exact List.mem_cons_of_mem _ (List.mem_singleton.2 rfl)

/-- Witness of C2, as amended: the batch `twoPuts` on a fresh engine, the
second append failing. -/
theorem Commit_append_failure_witness :
    (twoPuts.Commit freshDB (envFailAt 1)).1 = some (Error.store 5) ∧
    (twoPuts.Commit freshDB (envFailAt 1)).2.1 = twoPuts ∧
    hasFinished (twoPuts.Commit freshDB (envFailAt 1)).2.2.log 1 = false :=
  have h := Commit_append_failure twoPuts freshDB (envFailAt 1) 1 5 (by decide) (by decide)
    (envFailAt_Ranges 1) (by decide)
    (fun i hi => ⟨⟨0, i⟩, by simp [envFailAt]; omega⟩) rfl (by decide) (by decide)
  ⟨h.1, h.2.2.1, h.2.2.2.2.2.1⟩

/-- Counterexample to C3 as stated: after `Put("a", "1")` the caller writes the
byte `'b'` to the key buffer it passed, which the pending record shares. The
`Commit` of that batch succeeds; the key `"a"`, pending with a normal record,
has no index entry afterwards, and the key `"b"`, which is not pending and
had no index entry, is mapped to the position of the record. -/
theorem Commit_indexes_record_key :
    aliasedBatch.pendingWrite.entries
      = [(keyA, { Key := keyB, Value := [0x31], Typ := LogRecordType.LogRecordNormal })] ∧
    aliasedBatch.pendingWrite.get keyB = none ∧
    freshDB.index.Get keyB = none ∧
    (aliasedBatch.Commit freshDB envOk).1 = none ∧
    envOk.appendResult 0 = .ok ⟨0, 0⟩ ∧
    (aliasedBatch.Commit freshDB envOk).2.2.index.Get keyA = none ∧
    (aliasedBatch.Commit freshDB envOk).2.2.index.Get keyB = some ⟨0, 0⟩ :=
  ⟨by decide, by decide, by decide, by decide, rfl, by decide, by decide⟩

/-- Witness of C3, as amended: the batch `twoPuts` committed on a fresh engine; the key
`"a"`, pending with a normal record, is mapped to the position returned for
the append of that record; the key `"c"`, not pending, keeps its absence from
the index; and the pending map is empty afterwards. -/
theorem Commit_success_index_witness :
    (∃ i pos, (envOk.range1 twoPuts.pendingWrite.values)[i]? = some recordA ∧
      envOk.appendResult i = .ok pos ∧
      (twoPuts.Commit freshDB envOk).2.2.index.Get keyA = some pos) ∧
    (twoPuts.Commit freshDB envOk).2.2.index.Get keyC = freshDB.index.Get keyC ∧
    (twoPuts.Commit freshDB envOk).2.1.pendingWrite = GoMap.empty :=
  have h := Commit_success_index twoPuts freshDB envOk (by decide) twoPuts_WF.filed
    envOk_Ranges (by decide)
  ⟨h.1 keyA recordA (by decide) rfl, h.2.2.1 keyC (by decide), h.2.2.2⟩

/-- Witness of C4: the batch `twoPuts` committed on a fresh engine appends
three records. -/
theorem Commit_success_log_witness :
    ((envOk.range1 twoPuts.pendingWrite.values).map
        (fun r => r.withSeq ((freshDB.seqNo + 1) % 2 ^ 64))
      ++ [finishedRecord ((freshDB.seqNo + 1) % 2 ^ 64)]).length
      = twoPuts.pendingWrite.len + 1 ∧
    (twoPuts.Commit freshDB envOk).2.2.seqNo = (freshDB.seqNo + 1) % 2 ^ 64 :=
  have h := Commit_success_log twoPuts freshDB envOk (by decide) envOk_Ranges (by decide)
  ⟨h.2.2.1, h.2.2.2.2⟩

/-- Witness of C5: the batch `twoPuts` on a fresh engine, the sync failing. -/
theorem Commit_sync_failure_witness :
    (twoPuts.Commit freshDB envSyncFail).1 = some (Error.store 7) ∧
    (twoPuts.Commit freshDB envSyncFail).2.2.index = freshDB.index ∧
    (twoPuts.Commit freshDB envSyncFail).2.1 = twoPuts :=
  have h := Commit_sync_failure twoPuts freshDB envSyncFail 7 (by decide) (by decide)
    envSyncFail_Ranges rfl rfl (fun i _ => ⟨⟨0, i⟩, rfl⟩) rfl
  ⟨h.1, h.2.1, h.2.2.1⟩

/-- Witness of C6: a batch with `MaxBatchNum = 2` and three pending entries
fails with `ErrExceedMaxBatchNum` and keeps its three entries. -/
theorem Commit_exceed_iff_witness :
    (threePending.Commit freshDB envOk).1 = some Error.ErrExceedMaxBatchNum ∧
    (threePending.Commit freshDB envOk).2.1 = threePending :=
  have h := Commit_exceed_iff threePending freshDB envOk
  ⟨h.1.2 (by decide), (h.2 (h.1.2 (by decide))).1⟩

/-- Witness of C7 at the key `"a"`. -/
theorem Put_Delete_empty_key_witness :
    twoPuts.Put freshDB [] [0x31] = (some Error.ErrKeyIsEmpty, twoPuts, freshDB) ∧
    twoPuts.Delete freshDB [] = (some Error.ErrKeyIsEmpty, twoPuts, freshDB) ∧
    (twoPuts.Put freshDB keyA [0x31]).1 = none ∧
    (twoPuts.Delete freshDB keyA).1 = none :=
  Put_Delete_empty_key twoPuts freshDB keyA [0x31] (by decide)

/-- Witness of C8: `Put("a", "2")` on a batch where `"a"` is pending with the
value `"1"`. -/
theorem Put_last_writer_wins_witness :
    (twoPuts.Put freshDB keyA [0x32]).2.1.pendingWrite.get keyA
      = some { Key := keyA, Value := [0x32], Typ := LogRecordType.LogRecordNormal } :=
  (Put_last_writer_wins twoPuts freshDB keyA [0x31] [0x32] (by decide)).2.1

/-- Witness of C9: `Delete("a")` on a fresh engine, `"a"` being pending. -/
theorem Delete_absent_key_witness :
    (twoPuts.Delete freshDB keyA).1 = none ∧
    (twoPuts.Delete freshDB keyA).2.1.pendingWrite.get keyA = none :=
  have h := Delete_absent_key twoPuts freshDB keyA [0x31] (by decide) rfl
  ⟨h.1, h.2.2.1⟩

/-- Witness of C10: `Delete("a")` on an engine whose index has `"a"`. -/
theorem Delete_indexed_key_witness :
    (twoPuts.Delete indexedDB keyA).2.1.pendingWrite.get keyA
      = some { Key := keyA, Value := [], Typ := LogRecordType.LogRecordDeleted } :=
  (Delete_indexed_key twoPuts indexedDB keyA ⟨0, 0⟩ (by decide) (by decide)).2.1

/-! ## The sequence number a Commit draws -/

/-- A `Commit` that passes the two checks at its head leaves the counter at
the number drawn and the log grown by some of the tagged pending records, in
the order visited, followed or not by the completion marker. -/
theorem Commit_segment (wb : WriteBatch) (db : DB) (env : Env) (hd : wb.Draws) :
    (wb.Commit db env).2.2.seqNo = (db.seqNo + 1) % 2 ^ 64 ∧
    ∃ j marker, (wb.Commit db env).2.2.log
        = db.log ++ ((env.range1 wb.pendingWrite.values).take j).map
            (fun r => r.withSeq ((db.seqNo + 1) % 2 ^ 64)) ++ marker ∧
      (marker = [] ∨ marker = [finishedRecord ((db.seqNo + 1) % 2 ^ 64)]) := by
  obtain ⟨hzero, hmax⟩ := hd
  rcases happ : appendPending env ((db.seqNo + 1) % 2 ^ 64)
    (env.range1 wb.pendingWrite.values) 0
    { db with seqNo := (db.seqNo + 1) % 2 ^ 64 } GoMap.empty with ⟨db1, res⟩
  cases res with
  | error err =>
    obtain ⟨j, code, -, -, -, hdb1⟩ := appendPending_error env _ _ _ _ _ _ _ happ
    rw [Commit_of_append_error wb db env db1 err hzero hmax happ, hdb1]
    exact ⟨rfl, j, [], by simp, Or.inl rfl⟩
  | ok positions =>
    obtain ⟨hdb1, -⟩ := appendPending_ok_log env _ _ _ _ _ _ _ happ
    have htake : (env.range1 wb.pendingWrite.values).take
        (env.range1 wb.pendingWrite.values).length = env.range1 wb.pendingWrite.values :=
      List.take_length _
    cases hmark : env.appendResult (env.range1 wb.pendingWrite.values).length with
    | error code =>
      rw [Commit_of_marker_error wb db env db1 positions code hzero hmax happ hmark, hdb1]
      exact ⟨rfl, _, [], by rw [htake]; simp, Or.inl rfl⟩
    | ok pos =>
      cases hsync : (if wb.options.SyncWrites && env.activeFile then env.syncResult
        else none) with
      | some code =>
        rw [Commit_of_sync_error wb db env db1 positions pos code hzero hmax happ hmark
          hsync, hdb1]
        exact ⟨rfl, _, _, by rw [htake], Or.inr rfl⟩
      | none =>
        rw [Commit_of_success wb db env db1 positions pos hzero hmax happ hmark hsync, hdb1]
        exact ⟨rfl, _, _, by rw [htake], Or.inr rfl⟩

/-- A `Commit` that does not pass the two checks at its head leaves the
engine as it was. -/
theorem Commit_not_draws (wb : WriteBatch) (db : DB) (env : Env) (hd : ¬ wb.Draws) :
    (wb.Commit db env).2.2 = db := by
  unfold WriteBatch.Commit
  by_cases hzero : wb.pendingWrite.len = 0
  · rw [if_pos hzero]
  · rw [if_neg hzero, if_pos (by
      by_contra hle
      exact hd ⟨hzero, by omega⟩)]

/-- The records a drawing `Commit` appends all decode to the number drawn. -/
theorem Commit_segment_seqNo (wb : WriteBatch) (db : DB) (env : Env) (hd : wb.Draws) :
    ∃ extra, (wb.Commit db env).2.2.log = db.log ++ extra ∧
      ∀ r ∈ extra, r.seqNo = some ((db.seqNo + 1) % 2 ^ 64) := by
  have hs : (db.seqNo + 1) % 2 ^ 64 < 2 ^ 64 := Nat.mod_lt _ (by norm_num)
  obtain ⟨-, j, marker, hlog, hmarker⟩ := Commit_segment wb db env hd
  refine ⟨_, by rw [hlog, List.append_assoc], ?_⟩
  intro r hr
  rcases List.mem_append.1 hr with h1 | h2
  · obtain ⟨x, -, rfl⟩ := List.mem_map.1 h1
    exact LogRecord.withSeq_seqNo x _ hs
  · rcases hmarker with hm | hm
    · rw [hm] at h2; cases h2
    · rw [hm, List.mem_singleton] at h2
      rw [h2]
      exact finishedRecord_seqNo _ hs

/-- C12, as amended: a `Commit` that draws a sequence number on an engine whose
counter is below `2 ^ 64 - 1` uses the counter value plus one, which is not
the reserved value 0: the counter is left at that number and every record
appended decodes to it; on an engine whose counter is 0 the number is 1. -/
theorem Commit_seqNo_next (wb : WriteBatch) (db : DB) (env : Env) (hd : wb.Draws)
    (hs : db.seqNo + 1 < 2 ^ 64) :
    (wb.Commit db env).2.2.seqNo = db.seqNo + 1 ∧
    (wb.Commit db env).2.2.seqNo ≠ nonTransactionSeqNo ∧
    (db.seqNo = 0 → (wb.Commit db env).2.2.seqNo = 1) ∧
    ∃ extra, (wb.Commit db env).2.2.log = db.log ++ extra ∧
      ∀ r ∈ extra, r.seqNo = some (db.seqNo + 1) ∧ r.seqNo ≠ some nonTransactionSeqNo := by
  have hseq : (wb.Commit db env).2.2.seqNo = db.seqNo + 1 := by
    rw [(Commit_segment wb db env hd).1, Nat.mod_eq_of_lt hs]
  obtain ⟨extra, hlog, hextra⟩ := Commit_segment_seqNo wb db env hd
  rw [Nat.mod_eq_of_lt hs] at hextra
  refine ⟨hseq, ?_, ?_, extra, hlog, ?_⟩
  · rw [hseq]
    exact Nat.succ_ne_zero _
  · intro h0
    rw [hseq, h0]
  · intro r hr
    refine ⟨hextra r hr, ?_⟩
    rw [hextra r hr]
    intro h
    exact Nat.succ_ne_zero _ (Option.some.inj h)

/-- Witness of C12, as amended: the batch `twoPuts` committed on a fresh
engine uses the number 1. -/
theorem Commit_seqNo_next_witness : (twoPuts.Commit freshDB envOk).2.2.seqNo = 1 :=
  (Commit_seqNo_next twoPuts freshDB envOk (by unfold WriteBatch.Draws; decide)
    (by decide)).2.2.1 rfl

/-- Counterexample to C12 as stated: on an engine whose counter holds
`2 ^ 64 - 1`, the batch `twoPuts` commits with success and the three records
appended all decode to the reserved sequence number 0. -/
theorem Commit_seqNo_wraps_to_zero :
    (twoPuts.Commit lastSeqDB envOk).1 = none ∧
    (twoPuts.Commit lastSeqDB envOk).2.2.seqNo = nonTransactionSeqNo ∧
    (twoPuts.Commit lastSeqDB envOk).2.2.log
      = [recordB.withSeq 0, recordA.withSeq 0, finishedRecord 0] ∧
    (recordB.withSeq 0).seqNo = some nonTransactionSeqNo ∧
    (recordA.withSeq 0).seqNo = some nonTransactionSeqNo ∧
    (finishedRecord 0).seqNo = some nonTransactionSeqNo :=
  ⟨by decide, by decide, rfl, LogRecord.withSeq_seqNo _ _ (by decide),
    LogRecord.withSeq_seqNo _ _ (by decide), finishedRecord_seqNo _ (by decide)⟩

/-! ## Frame properties -/

/-- C14: `Commit` on a batch whose pending map is empty returns no error and
leaves the batch and the engine (log, counter, index) as they were, for every
option setting and every environment, also one whose sync would fail; and a
second `Commit` right after a `Commit` that returned no error changes
nothing. -/
theorem Commit_empty_noop (wb : WriteBatch) (db : DB) (env env2 : Env) :
    (wb.pendingWrite.len = 0 → wb.Commit db env = (none, wb, db)) ∧
    ((wb.Commit db env).1 = none →
      (wb.Commit db env).2.1.Commit (wb.Commit db env).2.2 env2
        = (none, (wb.Commit db env).2.1, (wb.Commit db env).2.2)) := by
  have hnoop : ∀ (w : WriteBatch) (d : DB) (e : Env), w.pendingWrite.len = 0 →
      w.Commit d e = (none, w, d) := by
    intro w d e h
    unfold WriteBatch.Commit
    rw [if_pos h]
  refine ⟨hnoop wb db env, fun hsucc => hnoop _ _ _ ?_⟩
  by_cases hzero : wb.pendingWrite.len = 0
  · rw [hnoop wb db env hzero]
    exact hzero
  · obtain ⟨hmax, db1, positions, pos, happ, hmark, hsync⟩ :=
      Commit_success_inv wb db env hzero hsucc
    rw [Commit_of_success wb db env db1 positions pos hzero hmax happ hmark hsync]
    rfl

/-- Witness of C14: an empty batch with `MaxBatchNum = 0` and `SyncWrites`
set, in an environment whose sync fails; and the batch `twoPuts` committed
twice. -/
theorem Commit_empty_noop_witness :
    (NewWriteBatch { MaxBatchNum := 0, SyncWrites := true }).Commit freshDB envSyncFail
      = (none, NewWriteBatch { MaxBatchNum := 0, SyncWrites := true }, freshDB) ∧
    (twoPuts.Commit freshDB envOk).2.1.Commit (twoPuts.Commit freshDB envOk).2.2 envSyncFail
      = (none, (twoPuts.Commit freshDB envOk).2.1, (twoPuts.Commit freshDB envOk).2.2) :=
  ⟨(Commit_empty_noop _ freshDB envSyncFail envOk).1 rfl,
    (Commit_empty_noop twoPuts freshDB envOk envSyncFail).2 (by decide)⟩

/-- C16: `Put` and `Delete` change the pending map only: for every batch,
engine, key and value, the engine afterwards (index, log, sequence counter)
is the engine before, the options of the batch are unchanged, and every key
other than the argument key has the pending entry (or absence) it had. -/
theorem Put_Delete_frame (wb : WriteBatch) (db : DB) (key value : Bytes) :
    (wb.Put db key value).2.2 = db ∧
    (wb.Delete db key).2.2 = db ∧
    (wb.Put db key value).2.1.options = wb.options ∧
    (wb.Delete db key).2.1.options = wb.options ∧
    (∀ k, k ≠ key →
      (wb.Put db key value).2.1.pendingWrite.get k = wb.pendingWrite.get k) ∧
    (∀ k, k ≠ key →
      (wb.Delete db key).2.1.pendingWrite.get k = wb.pendingWrite.get k) := by
  refine ⟨Put_db wb db key value, Delete_db wb db key, ?_, ?_, ?_, ?_⟩
  · unfold WriteBatch.Put
    split <;> rfl
  · unfold WriteBatch.Delete
    split
    · rfl
    · dsimp only
      split
      · split <;> rfl
      · rfl
  · intro k hk
    unfold WriteBatch.Put
    split
    · rfl
    · exact GoMap.get_set_ne _ _ _ _ hk
  · intro k hk
    unfold WriteBatch.Delete
    split
    · rfl
    · dsimp only
      split
      · split
        · exact GoMap.get_delete_ne _ _ _ hk
        · rfl
      · exact GoMap.get_set_ne _ _ _ _ hk

/-- Witness of C16: `Delete("a")` on the batch `twoPuts` leaves the pending
entry of `"b"` and the engine as they were. -/
theorem Put_Delete_frame_witness :
    (twoPuts.Delete indexedDB keyA).2.2 = indexedDB ∧
    (twoPuts.Delete indexedDB keyA).2.1.pendingWrite.get keyB = twoPuts.pendingWrite.get keyB :=
  have h := Put_Delete_frame twoPuts indexedDB keyA []
  ⟨h.2.1, h.2.2.2.2.2 keyB (by decide)⟩

/-! ## The varint format -/

set_option maxRecDepth 100000 in
theorem lor_aux : ∀ a < 256, (a ||| 128) = a % 128 + 128 := by
  decide

theorem contByte_eq (x : Nat) : UInt8.ofNat x ||| 0x80 = UInt8.ofNat (x % 128 + 128) := by
  apply UInt8.ext
  rw [contByte_toNat, byte_toNat, lor_aux (x % 256) (Nat.mod_lt _ (by decide))]
  omega

theorem leb128Groups_lt (s : Nat) (h : s < 128) : leb128Groups s = 1 := by
  unfold leb128Groups
  rw [Nat.log_eq_zero_iff.2 (Or.inl h)]

theorem leb128Groups_ge (s : Nat) (h : 128 ≤ s) :
    leb128Groups s = leb128Groups (s / 128) + 1 := by
  unfold leb128Groups
  rw [Nat.log_of_one_lt_of_le (by decide) h]

/-- The bytes `binary.PutUvarint` writes are the LEB128 varint of the spec. -/
theorem PutUvarint_eq_leb128 (s : Nat) : PutUvarint s = leb128 s := by
  induction s using Nat.strong_induction_on with
  | _ s ih =>
    by_cases hge : 0x80 ≤ s
    · rw [PutUvarint_ge s hge, contByte_eq]
      have hdiv : s >>> 7 = s / 128 := by rw [Nat.shiftRight_eq_div_pow]
      rw [hdiv, ih (s / 128) (by omega)]
      unfold leb128
      rw [leb128Groups_ge s hge, List.range_succ_eq_map, List.map_cons, List.map_map]
      have hpos : 0 + 1 < leb128Groups (s / 128) + 1 := by
        unfold leb128Groups; omega
      congr 1
      · simp [hpos]
      · apply List.map_congr_left
        intro i _
        simp only [Function.comp, Nat.succ_eq_add_one]
        have hdd : s / 128 / 128 ^ i = s / 128 ^ (i + 1) := by
          rw [Nat.div_div_eq_div_mul, pow_succ, Nat.mul_comm]
        rw [hdd]
        by_cases hi : i + 1 < leb128Groups (s / 128)
        · rw [if_pos hi, if_pos (by omega)]
        · rw [if_neg hi, if_neg (by omega)]
    · have hlt : s < 128 := by omega
      rw [PutUvarint_lt s hlt]
      unfold leb128
      rw [leb128Groups_lt s hlt]
      show [UInt8.ofNat s]
        = [UInt8.ofNat (s / 128 ^ 0 % 128 + (if 0 + 1 < 1 then 128 else 0))]
      rw [if_neg (by decide), pow_zero, Nat.div_one, Nat.mod_eq_of_lt hlt, Nat.add_zero]

theorem leb128Groups_le (s : Nat) (h : s < 2 ^ 64) : leb128Groups s ≤ 10 := by
  unfold leb128Groups
  by_cases h0 : s = 0
  · subst h0; simp
  · have := Nat.log_lt_of_lt_pow (b := 128) (x := 10) h0 (by
      calc s < 2 ^ 64 := h
        _ ≤ 128 ^ 10 := by norm_num)
    omega

/-- C15: for every key and every 64-bit sequence number, the encoded key is
the standard unsigned LEB128 varint of the sequence number (7-bit groups,
least significant first, continuation bit on every byte but the last, between
1 and 10 bytes) followed by the bytes of the key; its length is the length
of the key plus that of the varint and at most the length of the key plus
10. -/
theorem logRecordKeyWithSeq_eq_leb128 (key : Bytes) (seqNo : Nat) (hs : seqNo < 2 ^ 64) :
    logRecordKeyWithSeq key seqNo = leb128 seqNo ++ key ∧
    1 ≤ (leb128 seqNo).length ∧
    (leb128 seqNo).length ≤ MaxVarintLen64 ∧
    (∀ i (h : i < (leb128 seqNo).length),
      (i + 1 < (leb128 seqNo).length ↔ 0x80 ≤ (leb128 seqNo)[i])) ∧
    (logRecordKeyWithSeq key seqNo).length = key.length + (leb128 seqNo).length ∧
    (logRecordKeyWithSeq key seqNo).length ≤ key.length + 10 := by
  have hlen : (leb128 seqNo).length = leb128Groups seqNo := by
    simp [leb128]
  have hle := leb128Groups_le seqNo hs
  have henc : logRecordKeyWithSeq key seqNo = leb128 seqNo ++ key := by
    unfold logRecordKeyWithSeq
    rw [PutUvarint_eq_leb128]
  refine ⟨henc, ?_, ?_, ?_, ?_, ?_⟩
  · rw [hlen]; unfold leb128Groups; omega
  · rw [hlen]; exact hle
  · intro i h
    have hi : i < leb128Groups seqNo := by rw [← hlen]; exact h
    have hget : (leb128 seqNo)[i] = UInt8.ofNat ((seqNo / 128 ^ i) % 128
        + (if i + 1 < leb128Groups seqNo then 128 else 0)) := by
      simp [leb128]
    have hmod : (seqNo / 128 ^ i) % 128 < 128 := Nat.mod_lt _ (by decide)
    rw [hget, hlen]
    have h80 : (0x80 : UInt8).toNat = 128 := by decide
    constructor
    · intro h1
      rw [if_pos h1]
      show (0x80 : UInt8).toNat ≤ (UInt8.ofNat _).toNat
      rw [byte_toNat, h80]
      omega
    · intro h1
      by_contra hnot
      rw [if_neg hnot] at h1
      have h2 : (0x80 : UInt8).toNat ≤ (UInt8.ofNat (seqNo / 128 ^ i % 128 + 0)).toNat := h1
      rw [byte_toNat, h80] at h2
      omega
  · rw [henc, List.length_append]; omega
  · rw [henc, List.length_append, hlen]; omega

/-- Witness of C15 at the key `"txn-fix"` and the largest sequence number. -/
theorem logRecordKeyWithSeq_eq_leb128_witness :
    logRecordKeyWithSeq txnFixKey (2 ^ 64 - 1) = leb128 (2 ^ 64 - 1) ++ txnFixKey ∧
    (logRecordKeyWithSeq txnFixKey (2 ^ 64 - 1)).length ≤ txnFixKey.length + 10 :=
  have h := logRecordKeyWithSeq_eq_leb128 txnFixKey (2 ^ 64 - 1) (by decide)
  ⟨h.1, h.2.2.2.2.2⟩

/-! ## Decoding arbitrary bytes -/

/-- The count `binary.Uvarint` reports never exceeds the bytes available. -/
theorem uvarintLoop_le (l : Bytes) : ∀ (x s i : Nat),
    (uvarintLoop l x s i).2 ≤ (i : Int) + l.length := by
  induction l with
  | nil => intro x s i; simp [uvarintLoop]
  | cons b rest ih =>
    intro x s i
    simp only [uvarintLoop, List.length_cons]
    split
    · show -((i : Int) + 1) ≤ _
      push_cast; omega
    · split
      · split
        · show -((i : Int) + 1) ≤ _
          push_cast; omega
        · show (i : Int) + 1 ≤ _
          push_cast; omega
      · have := ih (x ||| ((b &&& 0x7f).toNat <<< s) % 2 ^ 64) (s + 7) (i + 1)
        push_cast at this ⊢
        omega

theorem overflowsAfter_nil (k : Nat) : overflowsAfter k [] = false := by
  cases k <;> simp [overflowsAfter]

theorem overflowsAfter_succ_cons (k : Nat) (b : UInt8) (rest : Bytes) :
    overflowsAfter (k + 1) (b :: rest) = (decide (0x80 ≤ b) && overflowsAfter k rest) := by
  simp only [overflowsAfter, List.take_succ_cons, List.length_cons, List.all_cons,
    List.drop_succ_cons, Nat.add_right_cancel_iff]
  cases decide (0x80 ≤ b) <;> cases decide ((List.take k rest).length = k) <;> simp

theorem UInt8_not_lt_iff (b : UInt8) : ¬ b < 0x80 ↔ 0x80 ≤ b := by
  show ¬ b.toNat < (0x80 : UInt8).toNat ↔ (0x80 : UInt8).toNat ≤ b.toNat
  omega

/-- With `k ≤ 9` bytes still allowed before the tenth, the loop of
`binary.Uvarint` reports a negative count exactly on the byte strings that
overflow after `k` continuation bytes. -/
theorem uvarintLoop_neg_iff (k : Nat) : ∀ (l : Bytes) (x s : Nat), k ≤ 9 →
    ((uvarintLoop l x s (9 - k)).2 < 0 ↔ overflowsAfter k l = true) := by
  induction k with
  | zero =>
    intro l x s _
    cases l with
    | nil => simp [uvarintLoop, overflowsAfter]
    | cons b rest =>
      by_cases hb : b < 0x80
      · have hb' : ¬ 0x80 ≤ b := fun h => (UInt8_not_lt_iff b).2 h hb
        by_cases h1 : b > 1
        · simp [uvarintLoop, overflowsAfter, MaxVarintLen64, hb, h1]
        · simp [uvarintLoop, overflowsAfter, MaxVarintLen64, hb, h1, hb']
      · have hb' : 0x80 ≤ b := (UInt8_not_lt_iff b).1 hb
        cases rest with
        | nil => simp [uvarintLoop, overflowsAfter, MaxVarintLen64, hb, hb']
        | cons c rest2 =>
          simp [uvarintLoop, overflowsAfter, MaxVarintLen64, hb, hb']
  | succ k ih =>
    intro l x s hk
    cases l with
    | nil =>
      rw [overflowsAfter_nil]
      simp [uvarintLoop]
    | cons b rest =>
      rw [overflowsAfter_succ_cons]
      have hne : ¬ (9 - (k + 1) = MaxVarintLen64) := by
        unfold MaxVarintLen64; omega
      have hne9 : ¬ (9 - (k + 1) = MaxVarintLen64 - 1) := by
        unfold MaxVarintLen64; omega
      by_cases hb : b < 0x80
      · have hb' : ¬ 0x80 ≤ b := fun h => (UInt8_not_lt_iff b).2 h hb
        simp only [uvarintLoop, if_neg hne, if_pos hb, hne9, false_and, if_false]
        simp only [hb', decide_False, Bool.false_and, Bool.false_eq_true, iff_false, not_lt]
        omega
      · have hb' : 0x80 ≤ b := (UInt8_not_lt_iff b).1 hb
        simp only [uvarintLoop, if_neg hne, if_neg hb]
        have hidx : 9 - (k + 1) + 1 = 9 - k := by omega
        rw [hidx, ih rest _ _ (by omega)]
        simp [hb']

/-- The count `binary.Uvarint` reports is negative exactly on the byte
strings whose leading varint overflows. -/
theorem Uvarint_neg_iff (buf : Bytes) : (Uvarint buf).2 < 0 ↔ varintOverflows buf = true :=
  uvarintLoop_neg_iff 9 buf 0 0 (Nat.le_refl 9)

theorem Uvarint_le (buf : Bytes) : (Uvarint buf).2 ≤ (buf.length : Int) := by
  have := uvarintLoop_le buf 0 0 0
  simpa [Uvarint] using this

/-- C19, as amended: for every byte string the count `n` that `binary.Uvarint`
reports is at most `len(encKey)`, and it is negative exactly when the leading
varint overflows: nine continuation bytes followed by a terminating byte above
1, or by a tenth continuation byte and at least one more byte. On every other
byte string (among them the empty one, every one of at most nine bytes, and a
varint truncated before its terminating byte) `0 ≤ n ≤ len(encKey)` and
`parseLogRecordKey` returns `(encKey[n:], value)`; on an overflowing one the
slice expression `encKey[n:]` panics. -/
theorem parseLogRecordKey_safe_iff (encKey : Bytes) :
    (Uvarint encKey).2 ≤ (encKey.length : Int) ∧
    ((Uvarint encKey).2 < 0 ↔ varintOverflows encKey = true) ∧
    (varintOverflows encKey = false →
      0 ≤ (Uvarint encKey).2 ∧
      parseLogRecordKey encKey
        = some (encKey.drop (Uvarint encKey).2.toNat, (Uvarint encKey).1)) ∧
    (varintOverflows encKey = true → parseLogRecordKey encKey = none) ∧
    (encKey.length ≤ 9 → varintOverflows encKey = false) := by
  have hle := Uvarint_le encKey
  have hiff := Uvarint_neg_iff encKey
  refine ⟨hle, hiff, ?_, ?_, ?_⟩
  · intro hno
    have hnn : 0 ≤ (Uvarint encKey).2 := by
      by_contra hneg
      have := hiff.1 (by omega)
      rw [hno] at this
      cases this
    refine ⟨hnn, ?_⟩
    unfold parseLogRecordKey
    simp only [if_pos (And.intro hnn hle)]
  · intro hyes
    have hneg := hiff.2 hyes
    unfold parseLogRecordKey
    simp only
    rw [if_neg (by omega)]
  · intro hlen
    unfold varintOverflows overflowsAfter
    rw [List.drop_eq_nil_of_le hlen]
    simp

/-- Witness of C19, as amended: the empty byte string and a lone continuation
byte (a truncated varint) are decoded without a panic. -/
theorem parseLogRecordKey_safe_iff_witness :
    parseLogRecordKey [] = some ([], 0) ∧ parseLogRecordKey [0x80] = some ([0x80], 0) :=
  ⟨((parseLogRecordKey_safe_iff []).2.2.1 (by decide)).2,
    ((parseLogRecordKey_safe_iff [0x80]).2.2.1 (by decide)).2⟩

/-- Counterexample to C19 as stated: on nine continuation bytes followed by
the byte 2, and on eleven continuation bytes, `binary.Uvarint` reports the
counts -10 and -11, and the slice expression of `parseLogRecordKey`
panics. -/
theorem parseLogRecordKey_panics :
    (Uvarint overflowingKey).2 = -10 ∧ parseLogRecordKey overflowingKey = none ∧
    (Uvarint overlongKey).2 = -11 ∧ parseLogRecordKey overlongKey = none := by
  decide

/-! ## The end-to-end scenario -/

theorem scenarioBatch_eq (db : DB) (hidx : db.index.Get keyA = none) :
    scenarioBatch db = ([none, none, none], onlyB, db) := by
  have hidx : db.index.Get [0x61] = none := hidx
  simp [scenarioBatch, NewWriteBatch, WriteBatch.Put, WriteBatch.Delete, GoMap.set, GoMap.get,
    GoMap.delete, GoMap.empty, keyA, keyB, recordB, LogRecordType.zero, hidx, onlyB]

/-- C13, as amended: on an engine whose index has no entry for `"a"`, after
`Put("a", "1")`, `Put("b", "2")`, `Delete("a")` on a batch with
`MaxBatchNum = 10` and `SyncWrites` set, all without error, `Commit` with its
two appends and its sync succeeding returns no error; afterwards the index
has no entry for `"a"` and maps `"b"` to the position returned for the record
holding `"2"`; and exactly one record, that of `"b"`, and one completion
marker were appended, both decoding to the same sequence number. -/
theorem scenario_commit (db : DB) (env : Env) (pos0 pos1 : LogRecordPos)
    (hidx : db.index.Get keyA = none) (hranges : env.Ranges)
    (h0 : env.appendResult 0 = .ok pos0) (h1 : env.appendResult 1 = .ok pos1)
    (hsync : env.activeFile = true → env.syncResult = none) :
    (scenarioBatch db).1 = [none, none, none] ∧
    (scenario db env).1 = none ∧
    (scenario db env).2.2.index.Get keyA = none ∧
    (scenario db env).2.2.index.Get keyB = some pos0 ∧
    (scenario db env).2.2.log
      = db.log ++ [recordB.withSeq ((db.seqNo + 1) % 2 ^ 64),
          finishedRecord ((db.seqNo + 1) % 2 ^ 64)] ∧
    (recordB.withSeq ((db.seqNo + 1) % 2 ^ 64)).seqNo = some ((db.seqNo + 1) % 2 ^ 64) ∧
    (finishedRecord ((db.seqNo + 1) % 2 ^ 64)).seqNo = some ((db.seqNo + 1) % 2 ^ 64) ∧
    (scenario db env).2.1.pendingWrite = GoMap.empty := by
  have hs : (db.seqNo + 1) % 2 ^ 64 < 2 ^ 64 := Nat.mod_lt _ (by norm_num)
  have hbatch := scenarioBatch_eq db hidx
  have hrange1 : env.range1 [recordB] = [recordB] := List.perm_singleton.1 (hranges _).1
  have hrange2 : env.range2 [recordB] = [recordB] := List.perm_singleton.1 (hranges _).2
  have hsync' : (if (true && env.activeFile) then env.syncResult else none) = none := by
    cases hact : env.activeFile with
    | false => rfl
    | true => simpa using hsync hact
  have happ : appendPending env ((db.seqNo + 1) % 2 ^ 64) [recordB] 0
      { db with seqNo := (db.seqNo + 1) % 2 ^ 64 } GoMap.empty
      = ({ db with seqNo := (db.seqNo + 1) % 2 ^ 64,
                   log := db.log ++ [recordB.withSeq ((db.seqNo + 1) % 2 ^ 64)] },
          .ok (GoMap.empty.set recordB.Key pos0)) := by
    rw [appendPending_cons_ok env _ 0 _ _ recordB [] pos0 h0, appendPending_nil]
  have hcommit := Commit_of_success onlyB db env _ _ pos1 (by decide) (by decide)
    (by
      show appendPending env _ (env.range1 [recordB]) 0 _ GoMap.empty = _
      rw [hrange1]; exact happ)
    (by
      show env.appendResult (env.range1 [recordB]).length = _
      rw [hrange1]; exact h1)
    hsync'
  have hscen : scenario db env = onlyB.Commit db env := by
    unfold scenario
    rw [hbatch]
  rw [hscen, hcommit, hbatch]
  refine ⟨rfl, rfl, ?_, ?_, ?_, LogRecord.withSeq_seqNo _ _ hs, finishedRecord_seqNo _ hs, rfl⟩
  · show (applyPending _ (env.range2 [recordB]) db.index).Get keyA = none
    rw [hrange2]
    show ((db.index.Put keyB _).Get keyA) = none
    rw [Index.Get_Put_ne _ _ _ _ (by decide), hidx]
  · show (applyPending _ (env.range2 [recordB]) db.index).Get keyB = some pos0
    rw [hrange2]
    show ((db.index.Put keyB ((GoMap.empty.set recordB.Key pos0).get recordB.Key)).Get keyB)
      = some pos0
    rw [Index.Get_Put_self, GoMap.get_set_self]
  · show (db.log ++ [recordB.withSeq ((db.seqNo + 1) % 2 ^ 64)])
        ++ [finishedRecord ((db.seqNo + 1) % 2 ^ 64)] = _
    rw [List.append_assoc]
    rfl

/-- Witness of C13, as amended, on a fresh engine. -/
theorem scenario_commit_witness :
    (scenario freshDB envOk).1 = none ∧
    (scenario freshDB envOk).2.2.index.Get keyB = some ⟨0, 0⟩ ∧
    (scenario freshDB envOk).2.2.log
      = freshDB.log ++ [recordB.withSeq ((freshDB.seqNo + 1) % 2 ^ 64),
          finishedRecord ((freshDB.seqNo + 1) % 2 ^ 64)] :=
  have h := scenario_commit freshDB envOk ⟨0, 0⟩ ⟨0, 1⟩ rfl envOk_Ranges rfl rfl (fun _ => rfl)
  ⟨h.2.1, h.2.2.2.1, h.2.2.2.2.1⟩

/-- Counterexample to C13 as stated: on a fresh engine, with every append and
the sync succeeding, the scenario succeeds and its `Commit` appends two
records in all, the record of `"b"` and the completion marker, not two records
and a completion marker: the `Delete("a")` has removed the pending record of
`"a"`. -/
theorem scenario_appends_one_record :
    (scenario freshDB envOk).1 = none ∧
    (scenario freshDB envOk).2.2.log.length = 2 ∧
    (scenario freshDB envOk).2.2.log = [recordB.withSeq 1, finishedRecord 1] ∧
    (scenarioBatch freshDB).2.1.pendingWrite.get keyA = none :=
  ⟨by decide, by decide, rfl, by decide⟩

/-! ## Lemmas on executions -/

/-- A call leaves the engine as it was, unless it is a `Commit` on a batch of
the system that draws a sequence number. -/
theorem System.step_db (sys : System) (op : Op) :
    (sys.step op).db = sys.db ∨
    ∃ b env wb, op = Op.Commit b env ∧ wb ∈ sys.batches ∧ wb.Draws ∧
      (sys.step op).db = (wb.Commit sys.db env).2.2 := by
  cases op with
  | NewWriteBatch options => left; rfl
  | Put b key value =>
    left
    simp only [System.step]
    split
    · exact Put_db _ _ _ _
    · rfl
  | Delete b key =>
    left
    simp only [System.step]
    split
    · exact Delete_db _ _ _
    · rfl
  | Commit b env =>
    simp only [System.step]
    split
    · next wb hwb =>
      by_cases hd : wb.Draws
      · right
        exact ⟨b, env, wb, rfl, List.getElem?_mem hwb, hd, rfl⟩
      · left
        exact Commit_not_draws wb sys.db env hd
    · left; rfl
  | Write b k key value =>
    left
    simp only [System.step]
    split <;> rfl

theorem System.step_not_commit (sys : System) (op : Op) (h : op.isCommit = false) :
    (sys.step op).db = sys.db := by
  rcases System.step_db sys op with hsame | ⟨b, env, wb, hop, -⟩
  · exact hsame
  · rw [hop] at h
    cases h

/-- Every call other than a write by the caller keeps every entry of every
batch filed under the key of its record. -/
theorem System.step_BatchesWF (sys : System) (op : Op) (hop : op.isWrite = false)
    (h : sys.BatchesWF) : (sys.step op).BatchesWF := by
  have hset : ∀ (b : Nat) (wb2 : WriteBatch) (d : DB), wb2.WF →
      (System.mk d (sys.batches.set b wb2)).BatchesWF := by
    intro b wb2 d hwf wb hmem
    rcases List.mem_or_eq_of_mem_set hmem with hold | hnew
    · exact h wb hold
    · rw [hnew]; exact hwf
  cases op with
  | NewWriteBatch options =>
    intro wb hmem
    rcases List.mem_append.1 hmem with hold | hnew
    · exact h wb hold
    · rw [List.mem_singleton.1 hnew]
      exact NewWriteBatch_WF options
  | Put b key value =>
    simp only [System.step]
    split
    · next wb hwb => exact hset b _ _ (Put_WF wb sys.db key value (h wb (List.getElem?_mem hwb)))
    · exact h
  | Delete b key =>
    simp only [System.step]
    split
    · next wb hwb => exact hset b _ _ (Delete_WF wb sys.db key (h wb (List.getElem?_mem hwb)))
    · exact h
  | Commit b env =>
    simp only [System.step]
    split
    · next wb hwb => exact hset b _ _ (Commit_WF wb sys.db env (h wb (List.getElem?_mem hwb)))
    · exact h
  | Write b k key value => cases hop

theorem System.run_BatchesWF (ops : List Op) : ∀ (sys : System),
    (∀ op ∈ ops, op.isWrite = false) → sys.BatchesWF → (sys.run ops).BatchesWF := by
  induction ops with
  | nil => intro sys _ h; exact h
  | cons op rest ih =>
    intro sys hops h
    exact ih _ (fun o ho => hops o (List.mem_cons_of_mem _ ho))
      (System.step_BatchesWF sys op (hops op (List.mem_cons_self _ _)) h)

/-- Every step, a write by the caller too, keeps the invariant of the pending
map in every batch. -/
theorem System.step_BatchesInv (sys : System) (op : Op) (h : sys.BatchesInv) :
    (sys.step op).BatchesInv := by
  have hset : ∀ (b : Nat) (wb2 : WriteBatch) (d : DB), wb2.Inv →
      (System.mk d (sys.batches.set b wb2)).BatchesInv := by
    intro b wb2 d hinv wb hmem
    rcases List.mem_or_eq_of_mem_set hmem with hold | hnew
    · exact h wb hold
    · rw [hnew]; exact hinv
  cases op with
  | NewWriteBatch options =>
    intro wb hmem
    rcases List.mem_append.1 hmem with hold | hnew
    · exact h wb hold
    · rw [List.mem_singleton.1 hnew]
      exact NewWriteBatch_Inv options
  | Put b key value =>
    simp only [System.step]
    split
    · next wb hwb => exact hset b _ _ (Put_Inv wb sys.db key value (h wb (List.getElem?_mem hwb)))
    · exact h
  | Delete b key =>
    simp only [System.step]
    split
    · next wb hwb => exact hset b _ _ (Delete_Inv wb sys.db key (h wb (List.getElem?_mem hwb)))
    · exact h
  | Commit b env =>
    simp only [System.step]
    split
    · next wb hwb => exact hset b _ _ (Commit_Inv wb sys.db env (h wb (List.getElem?_mem hwb)))
    · exact h
  | Write b k key value =>
    simp only [System.step]
    split
    · next wb hwb =>
      exact hset b _ _ (callerWrite_Inv wb k key value (h wb (List.getElem?_mem hwb)))
    · exact h

theorem System.run_BatchesInv (ops : List Op) : ∀ (sys : System), sys.BatchesInv →
    (sys.run ops).BatchesInv := by
  induction ops with
  | nil => intro sys h; exact h
  | cons op rest ih => intro sys h; exact ih _ (System.step_BatchesInv sys op h)

theorem System.fresh_BatchesInv (db : DB) : (System.mk db []).BatchesInv :=
  fun wb hmem => absurd hmem (List.not_mem_nil wb)

theorem System.fresh_BatchesWF (db : DB) : (System.mk db []).BatchesWF :=
  fun wb hmem => absurd hmem (List.not_mem_nil wb)

/-- What a call does to the counter and the log: nothing, or, for a `Commit`,
the counter advances by one and the records appended all decode to the new
counter. -/
theorem System.step_seqNo (sys : System) (op : Op) :
    (sys.step op).db.log = sys.db.log ++ sys.appended op ∧
    (((sys.step op).db.seqNo = sys.db.seqNo ∧ sys.appended op = []) ∨
     (op.isCommit = true ∧ (sys.step op).db.seqNo = (sys.db.seqNo + 1) % 2 ^ 64 ∧
      ∀ r ∈ sys.appended op, r.seqNo = some ((sys.db.seqNo + 1) % 2 ^ 64))) := by
  rcases System.step_db sys op with hsame | ⟨b, env, wb, hop, -, hd, hdb⟩
  · have happ : sys.appended op = [] := by
      unfold System.appended
      rw [hsame]
      simp
    rw [happ, hsame]
    exact ⟨by simp, Or.inl ⟨rfl, rfl⟩⟩
  · obtain ⟨extra, hlog, hextra⟩ := Commit_segment_seqNo wb sys.db env hd
    have happ : sys.appended op = extra := by
      unfold System.appended
      rw [hdb, hlog, List.drop_left]
    rw [happ, hdb]
    refine ⟨hlog, Or.inr ⟨by rw [hop]; rfl, (Commit_segment wb sys.db env hd).1, hextra⟩⟩

/-- The records a drawing `Commit` on a batch built by `Put` and `Delete`
appends: records that are not completion markers, then at most one completion
marker. -/
theorem Commit_segment_typed (wb : WriteBatch) (db : DB) (env : Env) (hd : wb.Draws)
    (htyp : ∀ r ∈ wb.pendingWrite.values, r.Typ ≠ LogRecordType.LogRecordFinished)
    (hranges : env.Ranges) :
    ∃ data marker, (wb.Commit db env).2.2.log = db.log ++ (data ++ marker) ∧
      (∀ r ∈ data, r.Typ ≠ LogRecordType.LogRecordFinished) ∧
      (marker = [] ∨ marker = [finishedRecord ((db.seqNo + 1) % 2 ^ 64)]) := by
  obtain ⟨-, j, marker, hlog, hmarker⟩ := Commit_segment wb db env hd
  refine ⟨((env.range1 wb.pendingWrite.values).take j).map
    (fun r => r.withSeq ((db.seqNo + 1) % 2 ^ 64)), marker,
    by rw [hlog, List.append_assoc], ?_, hmarker⟩
  intro r hr
  obtain ⟨x, hx, rfl⟩ := List.mem_map.1 hr
  have hxv : x ∈ wb.pendingWrite.values :=
    ((hranges wb.pendingWrite.values).1.mem_iff).1 (List.mem_of_mem_take hx)
  exact htyp x hxv

/-- In the records a call appends, a completion marker comes last. -/
theorem System.appended_finished_last (sys : System) (op : Op) (hwf : sys.BatchesInv)
    (hv : op.Valid) :
    ∀ l1 l2 r, sys.appended op = l1 ++ r :: l2 →
      r.Typ = LogRecordType.LogRecordFinished → l2 = [] := by
  intro l1 l2 r hsplit htyp
  rcases System.step_db sys op with hsame | ⟨b, env, wb, hop, hmem, hd, hdb⟩
  · have happ : sys.appended op = [] := by
      unfold System.appended
      rw [hsame]
      simp
    rw [happ] at hsplit
    exact absurd hsplit (by simp)
  · have hr : env.Ranges := by
      rw [hop] at hv
      exact hv
    obtain ⟨data, marker, hlog, hdata, hmarker⟩ :=
      Commit_segment_typed wb sys.db env hd (hwf wb hmem).typ_values hr
    have happ : sys.appended op = data ++ marker := by
      unfold System.appended
      rw [hdb, hlog, List.drop_left]
    rw [happ] at hsplit
    rcases hmarker with hm | hm
    · rw [hm, List.append_nil] at hsplit
      exact absurd htyp (hdata r (by rw [hsplit]; simp))
    · rw [hm] at hsplit
      have hlen := congrArg List.length hsplit
      simp only [List.length_append, List.length_cons, List.length_nil] at hlen
      by_contra hne
      have hl2 : 0 < l2.length := List.length_pos.2 hne
      have hl1 : l1.length < data.length := by omega
      have hrdata : r ∈ data := by
        have hget := congrArg (fun l => l[l1.length]?) hsplit
        simp only [List.getElem?_append_left hl1, List.getElem?_append_right (Nat.le_refl _),
          Nat.sub_self, List.getElem?_cons_zero] at hget
        exact List.getElem?_mem hget
      exact hdata r hrdata htyp

theorem commitCount_cons (op : Op) (rest : List Op) :
    commitCount (op :: rest) = (if op.isCommit = true then 1 else 0) + commitCount rest := by
  unfold commitCount
  rw [List.filter_cons]
  split
  · simp; omega
  · simp

/-- Without wrap-around the counter never decreases, and advances by at most
one per `Commit` call. -/
theorem System.run_seqNo (ops : List Op) : ∀ (sys : System),
    sys.db.seqNo + commitCount ops < 2 ^ 64 →
    sys.db.seqNo ≤ (sys.run ops).db.seqNo ∧
    (sys.run ops).db.seqNo ≤ sys.db.seqNo + commitCount ops := by
  induction ops with
  | nil => intro sys _; exact ⟨Nat.le_refl _, Nat.le_add_right _ _⟩
  | cons op rest ih =>
    intro sys hb
    rw [commitCount_cons] at hb ⊢
    rcases (System.step_seqNo sys op).2 with ⟨hsame, -⟩ | ⟨hc, hnext, -⟩
    · have := ih (sys.step op) (by rw [hsame]; omega)
      rw [hsame] at this
      show _ ≤ ((sys.step op).run rest).db.seqNo ∧ ((sys.step op).run rest).db.seqNo ≤ _
      omega
    · rw [if_pos hc] at hb ⊢
      rw [Nat.mod_eq_of_lt (by omega)] at hnext
      have := ih (sys.step op) (by rw [hnext]; omega)
      rw [hnext] at this
      show _ ≤ ((sys.step op).run rest).db.seqNo ∧ ((sys.step op).run rest).db.seqNo ≤ _
      omega

/-- The log after a sequence of calls is the log before followed by the
records the calls appended, call by call. -/
theorem System.run_log (ops : List Op) : ∀ (sys : System),
    (sys.run ops).db.log = sys.db.log ++ (sys.trace ops).flatten := by
  induction ops with
  | nil => intro sys; simp [System.run, System.trace]
  | cons op rest ih =>
    intro sys
    show ((sys.step op).run rest).db.log = _
    rw [ih (sys.step op), (System.step_seqNo sys op).1]
    simp [System.trace, List.append_assoc]

/-- Without wrap-around, every record appended during a sequence of calls
decodes to a number above the counter before the calls and at most the
counter after them. -/
theorem System.trace_seqNo (ops : List Op) : ∀ (sys : System),
    sys.db.seqNo + commitCount ops < 2 ^ 64 →
    ∀ seg ∈ sys.trace ops, ∀ r ∈ seg,
      ∃ s, r.seqNo = some s ∧ sys.db.seqNo < s ∧ s ≤ (sys.run ops).db.seqNo := by
  induction ops with
  | nil => intro sys _ seg hseg; cases hseg
  | cons op rest ih =>
    intro sys hb seg hseg r hr
    rw [commitCount_cons] at hb
    have hstep := (System.step_seqNo sys op).2
    have hle : (sys.step op).db.seqNo + commitCount rest < 2 ^ 64 := by
      rcases hstep with ⟨hsame, -⟩ | ⟨hc, hnext, -⟩
      · rw [hsame]; omega
      · rw [if_pos hc] at hb
        rw [hnext, Nat.mod_eq_of_lt (by omega)]; omega
    have hrun := System.run_seqNo rest (sys.step op) hle
    rcases List.mem_cons.1 hseg with hhead | htail
    · rw [hhead] at hr
      rcases hstep with ⟨-, hnil⟩ | ⟨hc, hnext, hall⟩
      · rw [hnil] at hr; cases hr
      · rw [if_pos hc] at hb
        rw [Nat.mod_eq_of_lt (by omega)] at hnext hall
        refine ⟨_, hall r hr, Nat.lt_succ_self _, ?_⟩
        show _ ≤ ((sys.step op).run rest).db.seqNo
        omega
    · obtain ⟨s, hs, hlt, hle2⟩ := ih (sys.step op) hle seg htail r hr
      refine ⟨s, hs, ?_, hle2⟩
      rcases hstep with ⟨hsame, -⟩ | ⟨hc, hnext, -⟩
      · omega
      · rw [if_pos hc] at hb
        rw [Nat.mod_eq_of_lt (by omega)] at hnext
        omega

/-- Without wrap-around, the records of a later call decode to greater numbers
than the records of an earlier call. -/
theorem System.trace_pairwise (ops : List Op) : ∀ (sys : System),
    sys.db.seqNo + commitCount ops < 2 ^ 64 →
    (sys.trace ops).Pairwise (fun seg1 seg2 =>
      ∀ r1 ∈ seg1, ∀ r2 ∈ seg2, ∀ s1 s2, r1.seqNo = some s1 → r2.seqNo = some s2 → s1 < s2) := by
  induction ops with
  | nil => intro sys _; exact List.Pairwise.nil
  | cons op rest ih =>
    intro sys hb
    have hb0 := hb
    rw [commitCount_cons] at hb
    have hstep := (System.step_seqNo sys op).2
    have hle : (sys.step op).db.seqNo + commitCount rest < 2 ^ 64 := by
      rcases hstep with ⟨hsame, -⟩ | ⟨hc, hnext, -⟩
      · rw [hsame]; omega
      · rw [if_pos hc] at hb
        rw [hnext, Nat.mod_eq_of_lt (by omega)]; omega
    show List.Pairwise _ (sys.appended op :: (sys.step op).trace rest)
    rw [List.pairwise_cons]
    refine ⟨?_, ih (sys.step op) hle⟩
    intro seg2 hseg2 r1 hr1 r2 hr2 s1 s2 h1 h2
    obtain ⟨s, hs, hlt, -⟩ := System.trace_seqNo rest (sys.step op) hle seg2 hseg2 r2 hr2
    rw [h2] at hs
    have hs2 : s2 = s := Option.some.inj hs
    rcases hstep with ⟨-, hnil⟩ | ⟨hc, hnext, hall⟩
    · rw [hnil] at hr1; cases hr1
    · have := hall r1 hr1
      rw [h1] at this
      have hs1 : s1 = (sys.db.seqNo + 1) % 2 ^ 64 := Option.some.inj this
      rw [hnext] at hlt
      omega

/-- In the records each call of a sequence appends, a completion marker comes
last. -/
theorem System.trace_finished_last (ops : List Op) : ∀ (sys : System),
    sys.BatchesInv → (∀ op ∈ ops, op.Valid) →
    ∀ seg ∈ sys.trace ops, ∀ l1 l2 r, seg = l1 ++ r :: l2 →
      r.Typ = LogRecordType.LogRecordFinished → l2 = [] := by
  induction ops with
  | nil => intro sys _ _ seg hseg; cases hseg
  | cons op rest ih =>
    intro sys hwf hv seg hseg
    rcases List.mem_cons.1 hseg with hhead | htail
    · rw [hhead]
      exact System.appended_finished_last sys op hwf (hv op (List.mem_cons_self _ _))
    · exact ih (sys.step op) (System.step_BatchesInv sys op hwf)
        (fun o ho => hv o (List.mem_cons_of_mem _ ho)) seg htail

theorem finishedOf_append (l1 l2 : List LogRecord) (s : Nat) :
    finishedOf (l1 ++ l2) s = finishedOf l1 s ++ finishedOf l2 s := by
  unfold finishedOf
  rw [List.filter_append]

theorem finishedOf_eq_nil_of_typ (l : List LogRecord) (s : Nat)
    (h : ∀ r ∈ l, r.Typ ≠ LogRecordType.LogRecordFinished) : finishedOf l s = [] := by
  unfold finishedOf
  rw [List.filter_eq_nil_iff]
  intro r hr hdec
  exact h r hr (of_decide_eq_true hdec).1

theorem finishedOf_eq_nil_of_seqNo (l : List LogRecord) (s : Nat)
    (h : ∀ r ∈ l, r.seqNo ≠ some s) : finishedOf l s = [] := by
  unfold finishedOf
  rw [List.filter_eq_nil_iff]
  intro r hr hdec
  exact h r hr (of_decide_eq_true hdec).2

theorem finishedOf_length_le (l : List LogRecord) (s : Nat) :
    (finishedOf l s).length ≤ l.length := by
  unfold finishedOf
  exact List.length_filter_le _ _

/-- A `Commit` call that does not wrap the counter keeps every record of the
log between 1 and the counter and at most one completion marker per sequence
number. -/
theorem System.step_LogInRange (sys : System) (op : Op) (hwf : sys.BatchesInv)
    (hv : op.Valid) (hb : op.isCommit = true → sys.db.seqNo + 1 < 2 ^ 64)
    (hr : sys.db.LogInRange) (hf : ∀ s, (finishedOf sys.db.log s).length ≤ 1) :
    (sys.step op).db.LogInRange ∧ ∀ s, (finishedOf (sys.step op).db.log s).length ≤ 1 := by
  rcases System.step_db sys op with hsame | ⟨b, env, wb, hop, hmem, hd, hdb⟩
  · rw [hsame]
    exact ⟨hr, hf⟩
  · have hc : op.isCommit = true := by rw [hop]; rfl
    have hs := hb hc
    have hranges : env.Ranges := by
      rw [hop] at hv
      exact hv
    have hseq : (wb.Commit sys.db env).2.2.seqNo = sys.db.seqNo + 1 := by
      rw [(Commit_segment wb sys.db env hd).1, Nat.mod_eq_of_lt hs]
    obtain ⟨extra, hlog, hextra⟩ := Commit_segment_seqNo wb sys.db env hd
    obtain ⟨data, marker, hlog2, hdata, hmarker⟩ :=
      Commit_segment_typed wb sys.db env hd (hwf wb hmem).typ_values hranges
    rw [Nat.mod_eq_of_lt hs] at hextra
    have hsplit : extra = data ++ marker :=
      List.append_cancel_left (hlog.symm.trans hlog2)
    rw [hdb]
    refine ⟨?_, ?_⟩
    · intro r hrmem
      rw [hlog] at hrmem
      rw [hseq]
      rcases List.mem_append.1 hrmem with hold | hnew
      · obtain ⟨s, hs1, hs2, hs3⟩ := hr r hold
        exact ⟨s, hs1, hs2, by omega⟩
      · exact ⟨_, hextra r hnew, by omega, Nat.le_refl _⟩
    · intro s
      rw [hlog, finishedOf_append]
      by_cases hsn : s = sys.db.seqNo + 1
      · have hold : finishedOf sys.db.log s = [] := by
          apply finishedOf_eq_nil_of_seqNo
          intro r hrmem heq
          obtain ⟨s', hs1, -, hs3⟩ := hr r hrmem
          rw [heq] at hs1
          have := Option.some.inj hs1
          omega
        rw [hold, List.nil_append, hsplit, finishedOf_append,
          finishedOf_eq_nil_of_typ data s hdata, List.nil_append]
        have hlen : marker.length ≤ 1 := by
          rcases hmarker with hm | hm <;> rw [hm] <;> simp
        exact le_trans (finishedOf_length_le marker s) hlen
      · have hnew : finishedOf extra s = [] := by
          apply finishedOf_eq_nil_of_seqNo
          intro r hrmem heq
          rw [hextra r hrmem] at heq
          exact hsn (Option.some.inj heq).symm
        rw [hnew, List.append_nil]
        exact hf s

/-- A sequence of calls that does not wrap the counter keeps every record of
the log between 1 and the counter and at most one completion marker per
sequence number. -/
theorem System.run_LogInRange (ops : List Op) : ∀ (sys : System),
    sys.BatchesInv → (∀ op ∈ ops, op.Valid) → sys.db.seqNo + commitCount ops < 2 ^ 64 →
    sys.db.LogInRange → (∀ s, (finishedOf sys.db.log s).length ≤ 1) →
    (sys.run ops).db.LogInRange ∧ ∀ s, (finishedOf (sys.run ops).db.log s).length ≤ 1 := by
  induction ops with
  | nil => intro sys _ _ _ hr hf; exact ⟨hr, hf⟩
  | cons op rest ih =>
    intro sys hwf hv hb hr hf
    rw [commitCount_cons] at hb
    have hstep := System.step_LogInRange sys op hwf (hv op (List.mem_cons_self _ _))
      (fun hc => by rw [if_pos hc] at hb; omega) hr hf
    have hle : (sys.step op).db.seqNo + commitCount rest < 2 ^ 64 := by
      rcases (System.step_seqNo sys op).2 with ⟨hsame, -⟩ | ⟨hc, hnext, -⟩
      · rw [hsame]; omega
      · rw [if_pos hc] at hb
        rw [hnext, Nat.mod_eq_of_lt (by omega)]; omega
    exact ih (sys.step op) (System.step_BatchesInv sys op hwf)
      (fun o ho => hv o (List.mem_cons_of_mem _ ho)) hle hstep.1 hstep.2

theorem exampleOps_Valid : ∀ op ∈ exampleOps, op.Valid := by
  intro op hop
  simp only [exampleOps, List.mem_cons, List.mem_singleton, List.not_mem_nil, or_false] at hop
  rcases hop with h | h | h | h | h | h <;> rw [h]
  · exact trivial
  · exact trivial
  · exact trivial
  · exact envOk_Ranges
  · exact trivial
  · exact envFailAt_Ranges 0

theorem System.step_Commit_draws (sys : System) (b : Nat) (env : Env) (wb : WriteBatch)
    (h : sys.batches[b]? = some wb) (hd : wb.Draws) :
    (sys.step (Op.Commit b env)).db.seqNo = (sys.db.seqNo + 1) % 2 ^ 64 ∧
    ∀ r ∈ sys.appended (Op.Commit b env), r.seqNo = some ((sys.db.seqNo + 1) % 2 ^ 64) := by
  have hdb : (sys.step (Op.Commit b env)).db = (wb.Commit sys.db env).2.2 := by
    simp only [System.step, h, System.update]
  obtain ⟨extra, hlog, hextra⟩ := Commit_segment_seqNo wb sys.db env hd
  have happ : sys.appended (Op.Commit b env) = extra := by
    unfold System.appended
    rw [hdb, hlog, List.drop_left]
  rw [happ, hdb]
  exact ⟨(Commit_segment wb sys.db env hd).1, hextra⟩

/-! ## Sequence numbers along an execution -/

theorem next_seqNo_ne (c : Nat) : (c + 1) % 2 ^ 64 ≠ c := by
  omega

theorem System.NoWrap_append (a : List Op) : ∀ (sys : System) (b : List Op),
    sys.NoWrap (a ++ b) ↔ sys.NoWrap a ∧ (sys.run a).NoWrap b := by
  induction a with
  | nil => intro sys b; simp [System.NoWrap, System.run]
  | cons op rest ih =>
    intro sys b
    show (_ ∧ (sys.step op).NoWrap (rest ++ b)) ↔ (_ ∧ (sys.step op).NoWrap rest) ∧ _
    rw [ih (sys.step op) b]
    exact ⟨fun h => ⟨⟨h.1, h.2.1⟩, h.2.2⟩, fun h => ⟨h.1.1, h.1.2, h.2⟩⟩

/-- While the counter does not wrap it never decreases. -/
theorem System.NoWrap_seqNo (ops : List Op) : ∀ (sys : System), sys.NoWrap ops →
    sys.db.seqNo ≤ (sys.run ops).db.seqNo := by
  induction ops with
  | nil => intro sys _; exact Nat.le_refl _
  | cons op rest ih =>
    intro sys h
    have hrest := ih (sys.step op) h.2
    show _ ≤ ((sys.step op).run rest).db.seqNo
    rcases (System.step_seqNo sys op).2 with ⟨hsame, -⟩ | ⟨-, hnext, -⟩
    · omega
    · have hlt := h.1 (by rw [hnext]; exact next_seqNo_ne _)
      rw [Nat.mod_eq_of_lt (by omega)] at hnext
      omega

/-- A `Commit` that draws a number without wrapping the counter uses the
counter plus one, and the records it appends decode to that number. -/
theorem System.step_Commit_NoWrap (sys : System) (b : Nat) (env : Env) (wb : WriteBatch)
    (h : sys.batches[b]? = some wb) (hd : wb.Draws) (hnw : sys.NoWrap [Op.Commit b env]) :
    sys.db.seqNo + 1 < 2 ^ 64 ∧
    (sys.step (Op.Commit b env)).db.seqNo = sys.db.seqNo + 1 ∧
    ∀ r ∈ sys.appended (Op.Commit b env), r.seqNo = some (sys.db.seqNo + 1) := by
  obtain ⟨hseq, happ⟩ := System.step_Commit_draws sys b env wb h hd
  have hlt := hnw.1 (by rw [hseq]; exact next_seqNo_ne _)
  have hlt2 : sys.db.seqNo + 1 < 2 ^ 64 := by omega
  rw [Nat.mod_eq_of_lt hlt2] at hseq happ
  exact ⟨hlt2, hseq, happ⟩

/-- C11, as amended: take a `Commit` that draws a sequence number in any state
of the system, any calls after it, and a later `Commit` that draws a sequence
number, the counter not wrapping from the one to the other: no call finds the
counter at `2 ^ 64 - 1` and changes it. The earlier `Commit`
uses the counter plus one, whether it then succeeds or fails at an append or
at the sync, and the records it appended decode to that number; the later
`Commit` uses a strictly greater number, and the records it appends decode
to it. -/
theorem Commit_seqNo_increasing (sys : System) (b1 b2 : Nat) (env1 env2 : Env)
    (wb1 wb2 : WriteBatch) (mid : List Op)
    (h1 : sys.batches[b1]? = some wb1) (hd1 : wb1.Draws)
    (h2 : ((sys.step (Op.Commit b1 env1)).run mid).batches[b2]? = some wb2) (hd2 : wb2.Draws)
    (hnw : sys.NoWrap (Op.Commit b1 env1 :: (mid ++ [Op.Commit b2 env2]))) :
    (sys.step (Op.Commit b1 env1)).db.seqNo = sys.db.seqNo + 1 ∧
    (∀ r ∈ sys.appended (Op.Commit b1 env1), r.seqNo = some (sys.db.seqNo + 1)) ∧
    sys.db.seqNo + 1
      < (((sys.step (Op.Commit b1 env1)).run mid).step (Op.Commit b2 env2)).db.seqNo ∧
    (∀ r ∈ ((sys.step (Op.Commit b1 env1)).run mid).appended (Op.Commit b2 env2),
      r.seqNo
        = some (((sys.step (Op.Commit b1 env1)).run mid).step (Op.Commit b2 env2)).db.seqNo) := by
  have hnw1 : sys.NoWrap [Op.Commit b1 env1] := ⟨hnw.1, trivial⟩
  obtain ⟨hnwmid, hnw2⟩ := (System.NoWrap_append mid _ _).1 hnw.2
  obtain ⟨-, hseq1, happ1⟩ := System.step_Commit_NoWrap sys b1 env1 wb1 h1 hd1 hnw1
  have hmid := System.NoWrap_seqNo mid (sys.step (Op.Commit b1 env1)) hnwmid
  obtain ⟨-, hseq2, happ2⟩ := System.step_Commit_NoWrap
    ((sys.step (Op.Commit b1 env1)).run mid) b2 env2 wb2 h2 hd2 hnw2
  rw [hseq1] at hmid
  refine ⟨hseq1, happ1, by omega, ?_⟩
  rw [hseq2]
  exact happ2

/-- Witness of C11, as amended: on an engine whose counter holds `2 ^ 64 - 3`,
the batch `twoPuts` commits with a failing append, an empty batch commits,
and the batch `onlyB` commits: the numbers used are `2 ^ 64 - 2` and
`2 ^ 64 - 1`, without wrap. -/
theorem Commit_seqNo_increasing_witness :
    (nearWrapSystem.step (Op.Commit 0 (envFailAt 1))).db.seqNo
      = nearWrapSystem.db.seqNo + 1 ∧
    nearWrapSystem.db.seqNo + 1
      < (((nearWrapSystem.step (Op.Commit 0 (envFailAt 1))).run [Op.Commit 1 envOk]).step
          (Op.Commit 2 envOk)).db.seqNo :=
  have h := Commit_seqNo_increasing nearWrapSystem 0 2 (envFailAt 1) envOk twoPuts onlyB
    [Op.Commit 1 envOk] rfl (by unfold WriteBatch.Draws; decide) rfl
    (by unfold WriteBatch.Draws; decide)
    ⟨fun _ => by decide, fun _ => by decide, fun _ => by decide, trivial⟩
  ⟨h.1, h.2.2.1⟩

/-- Counterexample to C11 as stated: on an engine whose counter holds
`2 ^ 64 - 2`, a first `Commit` succeeds and its records decode to
`2 ^ 64 - 1`; a second `Commit` then succeeds and its records decode to 0,
which is not greater. -/
theorem Commit_seqNo_wraps :
    (twoPuts.Commit nearLastSeqDB envOk).1 = none ∧
    (twoPuts.Commit nearLastSeqDB envOk).2.2.log
      = [recordB.withSeq (2 ^ 64 - 1), recordA.withSeq (2 ^ 64 - 1),
          finishedRecord (2 ^ 64 - 1)] ∧
    (twoPuts.Commit (twoPuts.Commit nearLastSeqDB envOk).2.2 envOk).1 = none ∧
    (twoPuts.Commit (twoPuts.Commit nearLastSeqDB envOk).2.2 envOk).2.2.log
      = [recordB.withSeq (2 ^ 64 - 1), recordA.withSeq (2 ^ 64 - 1),
          finishedRecord (2 ^ 64 - 1), recordB.withSeq 0, recordA.withSeq 0,
          finishedRecord 0] ∧
    (recordB.withSeq (2 ^ 64 - 1)).seqNo = some (2 ^ 64 - 1) ∧
    (recordB.withSeq 0).seqNo = some 0 ∧
    ¬ (2 ^ 64 - 1 < 0) :=
  ⟨by decide, rfl, by decide, rfl, LogRecord.withSeq_seqNo _ _ (by decide),
    LogRecord.withSeq_seqNo _ _ (by decide), by decide⟩

/-- Without wrap-around, two records of one sequence number appended during a
sequence of calls were appended by the same call. -/
theorem System.trace_same_call (ops : List Op) (sys : System)
    (hb : sys.db.seqNo + commitCount ops < 2 ^ 64) :
    ∀ (i j : Nat) (hi : i < (sys.trace ops).length) (hj : j < (sys.trace ops).length),
      ∀ r1 ∈ (sys.trace ops)[i], ∀ r2 ∈ (sys.trace ops)[j], r1.seqNo = r2.seqNo → i = j := by
  intro i j hi hj r1 hr1 r2 hr2 heq
  have hpw := List.pairwise_iff_getElem.1 (System.trace_pairwise ops sys hb)
  obtain ⟨s1, hs1, -, -⟩ := System.trace_seqNo ops sys hb _ (List.getElem_mem hi) r1 hr1
  obtain ⟨s2, hs2, -, -⟩ := System.trace_seqNo ops sys hb _ (List.getElem_mem hj) r2 hr2
  have hs : s1 = s2 := by
    rw [hs1, hs2] at heq
    exact Option.some.inj heq
  rcases Nat.lt_trichotomy i j with hlt | heq' | hgt
  · have := hpw i j hi hj hlt r1 hr1 r2 hr2 s1 s2 hs1 hs2
    omega
  · exact heq'
  · have := hpw j i hj hi hgt r2 hr2 r1 hr1 s2 s1 hs2 hs1
    omega

/-! ## The invariants along an execution -/

/-- C18, as amended: starting from no batch, after any sequence of
`NewWriteBatch`, `Put`, `Delete` and `Commit` calls (successful or failed)
and of writes by the callers to the buffers they passed, every entry of every
batch is filed under a non-empty key, its record carries a non-empty key of
the same length, and the type of the record is `LogRecordNormal` or
`LogRecordDeleted`; and as long as no caller has written to a buffer it
passed, the record carries the very key it is filed under. Hence in the
records a successful `Commit` of such a batch appends, one per pending entry
and then the completion marker, the completion marker is the only
`LogRecordFinished` record; also when the key of a pending record is the
sentinel `"txn-fix"`, whose tagged record then has the very key of the
completion marker. -/
theorem pendingWrite_invariant (db : DB) (ops : List Op) (wb : WriteBatch)
    (hwb : wb ∈ ((System.mk db []).run ops).batches) :
    (∀ e ∈ wb.pendingWrite.entries,
      e.1 ≠ [] ∧ e.2.Key.length = e.1.length ∧ e.2.Key ≠ [] ∧
      (e.2.Typ = LogRecordType.LogRecordNormal ∨ e.2.Typ = LogRecordType.LogRecordDeleted)) ∧
    ((∀ op ∈ ops, op.isWrite = false) → ∀ e ∈ wb.pendingWrite.entries, e.2.Key = e.1) ∧
    (∀ (db2 : DB) (env : Env), env.Ranges → wb.pendingWrite.len ≠ 0 →
      (wb.Commit db2 env).1 = none →
      ∃ data, (wb.Commit db2 env).2.2.log
          = db2.log ++ data ++ [finishedRecord ((db2.seqNo + 1) % 2 ^ 64)] ∧
        data.length = wb.pendingWrite.len ∧
        ∀ r ∈ data, r.Typ ≠ LogRecordType.LogRecordFinished) ∧
    (∀ r s, r ∈ wb.pendingWrite.values → r.Key = txnFixKey →
      (r.withSeq s).Key = (finishedRecord s).Key ∧
      (r.withSeq s).Typ ≠ LogRecordType.LogRecordFinished) := by
  have hinv : wb.Inv := System.run_BatchesInv ops _ (System.fresh_BatchesInv db) wb hwb
  refine ⟨?_, ?_, ?_, ?_⟩
  · intro e he
    obtain ⟨hne, hlen, htyp⟩ := hinv.2 e he
    refine ⟨hne, hlen, ?_, ?_⟩
    · intro hnil
      rw [hnil] at hlen
      exact hne (List.length_eq_zero.1 hlen.symm)
    · cases hcase : e.2.Typ with
      | LogRecordNormal => exact Or.inl rfl
      | LogRecordDeleted => exact Or.inr rfl
      | LogRecordFinished => exact absurd hcase htyp
  · intro hnowrite e he
    have hwf : wb.WF :=
      System.run_BatchesWF ops _ hnowrite
        (fun w hw => absurd hw (List.not_mem_nil w)) wb hwb
    exact (hwf.2 e he).1
  · intro db2 env hranges hne hsucc
    obtain ⟨hmax, db1, positions, pos, happ, hmark, hsync⟩ :=
      Commit_success_inv wb db2 env hne hsucc
    obtain ⟨hdb1, -⟩ := appendPending_ok_log env _ _ _ _ _ _ _ happ
    rw [Commit_of_success wb db2 env db1 positions pos hne hmax happ hmark hsync]
    refine ⟨(env.range1 wb.pendingWrite.values).map
      (fun r => r.withSeq ((db2.seqNo + 1) % 2 ^ 64)), by rw [hdb1], ?_, ?_⟩
    · rw [List.length_map, hranges.length1, GoMap.length_values]
    · intro r hr
      obtain ⟨x, hx, rfl⟩ := List.mem_map.1 hr
      exact hinv.typ_values x (((hranges wb.pendingWrite.values).1.mem_iff).1 hx)
  · intro r s hr hkey
    refine ⟨?_, hinv.typ_values r hr⟩
    show logRecordKeyWithSeq r.Key s = logRecordKeyWithSeq txnFixKey s
    rw [hkey]

/-- Witness of C18, as amended: after `Put("txn-fix", "1")` on a new batch,
the pending record of the sentinel key carries that key and is a normal
record, and tagged with a sequence number it has the key of the completion
marker and not its type. -/
theorem pendingWrite_invariant_witness :
    (txnFixKey ≠ [] ∧ recordFix.Key.length = txnFixKey.length ∧ recordFix.Key ≠ [] ∧
      (recordFix.Typ = LogRecordType.LogRecordNormal ∨
        recordFix.Typ = LogRecordType.LogRecordDeleted)) ∧
    recordFix.Key = txnFixKey ∧
    (recordFix.withSeq 1).Key = (finishedRecord 1).Key ∧
    (recordFix.withSeq 1).Typ ≠ LogRecordType.LogRecordFinished :=
  have h := pendingWrite_invariant freshDB sentinelOps sentinelBatch (by decide)
  ⟨h.1 (txnFixKey, recordFix) (by decide),
    h.2.1 (by decide) (txnFixKey, recordFix) (by decide),
    h.2.2.2 recordFix 1 (by decide) rfl⟩

/-- Counterexample to C18 as stated: after `Put("a", "1")` on a new batch the
caller writes the byte `'b'` to the key buffer it passed, which the pending
record shares: the entry filed under `"a"` is a record whose key is `"b"`. -/
theorem pendingWrite_key_differs :
    aliasedBatch ∈ ((System.mk freshDB []).run aliasOps).batches ∧
    aliasedBatch.pendingWrite.get keyA
      = some { Key := keyB, Value := [0x31], Typ := LogRecordType.LogRecordNormal } ∧
    keyB ≠ keyA := by
  decide

/-- C20: starting from an engine with counter 0 and an empty log, after any
sequence of `NewWriteBatch`, `Put`, `Delete` and `Commit` calls on any
batches, in any environments (appends and syncs failing at will) and with
fewer than `2 ^ 64` `Commit` calls: every record of the log decodes to a
sequence number between 1 and the counter; every sequence number has at most
one completion marker; the log is made of the records each call appended,
call by call; the records of a later call decode to greater numbers than
those of an earlier call; two records of one sequence number were appended by
the same call; and in the records of one call a completion marker comes
last, so that the records of a sequence number precede its completion
marker. -/
theorem log_invariant (index : Index) (ops : List Op) (hvalid : ∀ op ∈ ops, op.Valid)
    (hcount : commitCount ops < 2 ^ 64) :
    (∀ r ∈ ((System.fresh index).run ops).db.log,
      ∃ s, r.seqNo = some s ∧ 1 ≤ s ∧ s ≤ ((System.fresh index).run ops).db.seqNo) ∧
    (∀ s, (finishedOf ((System.fresh index).run ops).db.log s).length ≤ 1) ∧
    ((System.fresh index).run ops).db.log = ((System.fresh index).trace ops).flatten ∧
    ((System.fresh index).trace ops).Pairwise (fun seg1 seg2 =>
      ∀ r1 ∈ seg1, ∀ r2 ∈ seg2, ∀ s1 s2,
        r1.seqNo = some s1 → r2.seqNo = some s2 → s1 < s2) ∧
    (∀ (i j : Nat) (hi : i < ((System.fresh index).trace ops).length)
        (hj : j < ((System.fresh index).trace ops).length),
      ∀ r1 ∈ ((System.fresh index).trace ops)[i], ∀ r2 ∈ ((System.fresh index).trace ops)[j],
        r1.seqNo = r2.seqNo → i = j) ∧
    (∀ seg ∈ (System.fresh index).trace ops, ∀ l1 l2 r, seg = l1 ++ r :: l2 →
      r.Typ = LogRecordType.LogRecordFinished → l2 = []) := by
  have hwf : (System.fresh index).BatchesInv := System.fresh_BatchesInv _
  have hb : (System.fresh index).db.seqNo + commitCount ops < 2 ^ 64 := by
    show 0 + commitCount ops < 2 ^ 64
    omega
  have hr0 : (System.fresh index).db.LogInRange := fun r hr => absurd hr (List.not_mem_nil r)
  have hf0 : ∀ s, (finishedOf (System.fresh index).db.log s).length ≤ 1 := fun s => by
    show (finishedOf [] s).length ≤ 1
    simp [finishedOf]
  obtain ⟨hrange, hfin⟩ := System.run_LogInRange ops _ hwf hvalid hb hr0 hf0
  refine ⟨hrange, hfin, ?_, System.trace_pairwise ops _ hb,
    System.trace_same_call ops _ hb, System.trace_finished_last ops _ hwf hvalid⟩
  rw [System.run_log]
  rfl

/-- Witness of C20: the execution `exampleOps`, with a `Commit` that succeeds
and one that fails. -/
theorem log_invariant_witness :
    (finishedOf ((System.fresh ⟨fun _ => none⟩).run exampleOps).db.log 1).length ≤ 1 ∧
    ((System.fresh ⟨fun _ => none⟩).run exampleOps).db.log
      = ((System.fresh ⟨fun _ => none⟩).trace exampleOps).flatten :=
  have h := log_invariant ⟨fun _ => none⟩ exampleOps exampleOps_Valid (by decide)
  ⟨h.2.1 1, h.2.2.1⟩

end BitcaskGo
